import Mathlib

/-! A sorted linked-list priority queue (`priority_list.c`).

Shallow embedding of the queue operations of `priority_list.c`.

* A chain of `Node`s linked through `next` is a `List Node`; the empty list is the
  `NULL` chain.
* A `void*` payload pointer is a natural number, `0` being `NULL`.
* A `PriorityQueue*` handle is an `Option PriorityQueue`, `none` being `NULL`.
* `int` priorities are integers; the code only compares and copies them, so no
  arithmetic can overflow and every statement below holds in particular for the
  32-bit range.
* The outcome of `malloc` is an argument `malloc_ok` of the operations that allocate.
* An output pointer (`void** out_data`, `int* out_priority`) is an `Option` holding the
  current content of the pointed-to cell, `none` being a `NULL` pointer.
* Text written by `printf` is recorded as a list of `Output` events.
-/

namespace PriorityList

/-- One `Node` of the chain: the payload pointer `data` (`0` is `NULL`) and the sort key
`priority`. The `next` link is the tail of the list that holds the node. -/
structure Node where
  data : Nat
  priority : Int
deriving DecidableEq, Repr

/-- The queue record: `head` is the chain of nodes reachable from the head pointer. -/
structure PriorityQueue where
  head : List Node
deriving DecidableEq, Repr

/-- The lines the operations write to standard output, and the calls of the
user-supplied `print_func`. -/
inductive Output where
  | queue_alloc_failed
  | node_alloc_failed
  | inserted (priority : Int)
  | invalid_or_empty
  | banner
  | data_label
  | print_func (data : Nat)
  | priority_line (priority : Int)
  | footer
  | queue_deleted
deriving DecidableEq, Repr

/-- What `pq_create` hands back: the handle (`none` is `NULL`) and the text printed. -/
structure CreateResult where
  queue : Option PriorityQueue
  out : List Output
deriving DecidableEq, Repr

/-- What `pq_insert` hands back: the return code, the queue after the call and the text
printed. -/
structure InsertResult where
  ret : Int
  queue : Option PriorityQueue
  out : List Output
deriving DecidableEq, Repr

/-- What `pq_pop_highest` hands back: the return code, the queue after the call, the
contents of the two output cells after the call and the text printed. -/
structure PopResult where
  ret : Int
  queue : Option PriorityQueue
  out_data : Option Nat
  out_priority : Option Int
  out : List Output
deriving DecidableEq, Repr

/-- `pq_create`: allocate the queue record and set `head` to `NULL`; `NULL` when the
allocation fails. -/
def pq_create (malloc_ok : Bool) : CreateResult :=
  if malloc_ok then ⟨some ⟨[]⟩, []⟩ else ⟨none, [Output.queue_alloc_failed]⟩

/-- The `else` branch of `pq_insert`: `current` walks down the chain while the next node
exists and its priority is `<=` the new one, then `newNode` is linked between `current`
and `current->next`. `rest` is the chain starting at `current->next`. -/
def insert_after (current : Node) (rest : List Node) (newNode : Node) : List Node :=
  match rest with
  | [] => [current, newNode]
  | nxt :: rest2 =>
    if nxt.priority ≤ newNode.priority then current :: insert_after nxt rest2 newNode
    else current :: newNode :: nxt :: rest2

/-- `pq_insert(queue, data, priority)`, with the outcome of the node allocation as
`malloc_ok`. -/
def pq_insert (queue : Option PriorityQueue) (data : Nat) (priority : Int)
    (malloc_ok : Bool) : InsertResult :=
  match queue with
  | none => ⟨-1, none, []⟩
  | some q =>
    if data = 0 then ⟨-1, some q, []⟩
    else if malloc_ok = false then ⟨-1, some q, [Output.node_alloc_failed]⟩
    else
      match q.head with
      | [] => ⟨0, some ⟨[⟨data, priority⟩]⟩, [Output.inserted priority]⟩
      | h :: t =>
        if h.priority > priority then
          ⟨0, some ⟨⟨data, priority⟩ :: h :: t⟩, [Output.inserted priority]⟩
        else
          ⟨0, some ⟨insert_after h t ⟨data, priority⟩⟩, [Output.inserted priority]⟩

/-- `pq_pop_highest(queue, out_data, out_priority)`. -/
def pq_pop_highest (queue : Option PriorityQueue) (out_data : Option Nat)
    (out_priority : Option Int) : PopResult :=
  match queue, out_data, out_priority with
  | some q, some d, some p =>
    match q.head with
    | [] => ⟨-1, some q, some d, some p, [Output.invalid_or_empty]⟩
    | temp :: next => ⟨0, some ⟨next⟩, some temp.data, some temp.priority, []⟩
  | _, _, _ => ⟨-1, queue, out_data, out_priority, [Output.invalid_or_empty]⟩

/-- The loop of `pq_print`: one label, one call of `print_func` on the payload and one
priority line per node, from `temp` to the end of the chain. -/
def pq_print_loop : List Node → List Output
  | [] => []
  | temp :: next =>
    Output.data_label :: Output.print_func temp.data :: Output.priority_line temp.priority ::
      pq_print_loop next

/-- `pq_print(queue, print_func)`: everything written, calls of `print_func` included. -/
def pq_print (queue : Option PriorityQueue) : List Output :=
  match queue with
  | none => []
  | some q => Output.banner :: (pq_print_loop q.head ++ [Output.footer])

/-! ## Teardown: the queue as it sits in memory -/

/-- A node in memory: the address `malloc` returned for it and its fields. -/
structure HeapNode where
  addr : Nat
  node : Node
deriving DecidableEq, Repr

/-- A queue in memory: the address of the `PriorityQueue` record and the chain of nodes
reachable from its `head`. -/
structure HeapQueue where
  addr : Nat
  chain : List HeapNode
deriving DecidableEq, Repr

/-- The queue a `HeapQueue` stands for, addresses forgotten. -/
def HeapQueue.queue (q : HeapQueue) : PriorityQueue :=
  ⟨q.chain.map HeapNode.node⟩

/-- The memory `pq_delete` works on: which blocks are allocated and what each block
holds. -/
structure Memory where
  allocated : Nat → Bool
  content : Nat → Nat

/-- `free(ptr)`: the block at `ptr` is allocated no more; nothing else changes. -/
def free (m : Memory) (ptr : Nat) : Memory :=
  ⟨fun a => if a = ptr then false else m.allocated a, m.content⟩

/-- What `pq_delete` hands back: the memory after the call and the text printed. -/
structure DeleteResult where
  memory : Memory
  out : List Output

/-- The loop of `pq_delete`: `free(current)` for every node from `current` to the end of
the chain, the `next` link read before the node is freed. -/
def pq_delete_loop (m : Memory) : List HeapNode → Memory
  | [] => m
  | current :: next => pq_delete_loop (free m current.addr) next

/-- `pq_delete(queue)`: nothing for a NULL handle; else free every node, then the queue
record, and print the message. No `data` pointer is passed to `free` or written through. -/
def pq_delete (m : Memory) (queue : Option HeapQueue) : DeleteResult :=
  match queue with
  | none => ⟨m, []⟩
  | some q => ⟨free (pq_delete_loop m q.chain) q.addr, [Output.queue_deleted]⟩

/-! ## Callers: sequences of operations -/

/-- One call made by a client of the queue. -/
inductive Op where
  | insert (data : Nat) (priority : Int) (malloc_ok : Bool)
  | pop (out_data : Option Nat) (out_priority : Option Int)
deriving DecidableEq, Repr

/-- The return code of one call. -/
def Op.ret (queue : Option PriorityQueue) : Op → Int
  | Op.insert d p m => (pq_insert queue d p m).ret
  | Op.pop od op => (pq_pop_highest queue od op).ret

/-- The queue after one call. -/
def Op.step (queue : Option PriorityQueue) : Op → Option PriorityQueue
  | Op.insert d p m => (pq_insert queue d p m).queue
  | Op.pop od op => (pq_pop_highest queue od op).queue

/-- The queue after a sequence of calls, made one after the other. -/
def run (queue : Option PriorityQueue) : List Op → Option PriorityQueue
  | [] => queue
  | o :: ops => run (o.step queue) ops

/-- How many insert calls of the sequence return `0`. -/
def inserts_ok (queue : Option PriorityQueue) : List Op → Nat
  | [] => 0
  | Op.insert d p m :: ops =>
    (if (pq_insert queue d p m).ret = 0 then 1 else 0) +
      inserts_ok (pq_insert queue d p m).queue ops
  | Op.pop od op :: ops => inserts_ok (pq_pop_highest queue od op).queue ops

/-- How many pop calls of the sequence return `0`. -/
def pops_ok (queue : Option PriorityQueue) : List Op → Nat
  | [] => 0
  | Op.insert d p m :: ops => pops_ok (pq_insert queue d p m).queue ops
  | Op.pop od op :: ops =>
    (if (pq_pop_highest queue od op).ret = 0 then 1 else 0) +
      pops_ok (pq_pop_highest queue od op).queue ops

/-- The calls that insert the entries of `xs` one by one, every allocation succeeding. -/
def insert_ops (xs : List Node) : List Op :=
  xs.map (fun x => Op.insert x.data x.priority true)

/-- The drain loop of `main`: `while (pq_pop_highest(queue, &data, &priority) == 0)`,
collecting what each successful call left in `data` and `priority`. The loop runs at most
`fuel` calls; `none` when the fuel does not suffice. The result is the collected pairs and
the queue when the loop ends. -/
def pop_until_fail (fuel : Nat) (queue : Option PriorityQueue) (data : Nat)
    (priority : Int) : Option (List Node × Option PriorityQueue) :=
  match fuel with
  | 0 => none
  | fuel + 1 =>
    let r := pq_pop_highest queue (some data) (some priority)
    if r.ret = 0 then
      match pop_until_fail fuel r.queue (r.out_data.getD data) (r.out_priority.getD priority) with
      | none => none
      | some (popped, q) =>
        some (⟨r.out_data.getD data, r.out_priority.getD priority⟩ :: popped, q)
    else some ([], r.queue)

/-! ## Properties of chains -/

/-- The order on entries that the queue sorts by. -/
def prio_le (a b : Node) : Prop := a.priority ≤ b.priority

instance : DecidableRel prio_le :=
  fun a b => inferInstanceAs (Decidable (a.priority ≤ b.priority))

instance : IsTotal Node prio_le := ⟨fun a b => Int.le_total a.priority b.priority⟩

instance : IsTrans Node prio_le := ⟨fun _ _ _ h1 h2 => Int.le_trans h1 h2⟩

/-- Adjacent entries are in non-decreasing priority order: `e[i].priority <= e[i+1].priority`
for every two neighbours. -/
def sorted : List Node → Prop
  | [] => True
  | [_] => True
  | a :: b :: rest => a.priority ≤ b.priority ∧ sorted (b :: rest)

/-- Sortedness of a chain can be computed. -/
def sorted_dec : (l : List Node) → Decidable (sorted l)
  | [] => isTrue trivial
  | [_] => isTrue trivial
  | a :: b :: rest =>
    match sorted_dec (b :: rest) with
    | isTrue h2 =>
      if h1 : a.priority ≤ b.priority then isTrue ⟨h1, h2⟩
      else isFalse (fun h => h1 h.1)
    | isFalse h2 => isFalse (fun h => h2 h.2)

instance (l : List Node) : Decidable (sorted l) := sorted_dec l

/-- Specification of the expected pop order: the stable sort by priority (ascending
priority, equal priorities in their order of arrival), as an insertion sort that puts
each entry, last to first, in front of the entries of the same or a larger priority. -/
def stable_sort_by_priority (xs : List Node) : List Node :=
  xs.insertionSort prio_le

/-- Where a successful insert puts the new node, as a list operation: after the longest
initial run of entries whose priority is `<=` the new one. -/
def place (l : List Node) (n : Node) : List Node :=
  l.takeWhile (fun e => decide (e.priority ≤ n.priority)) ++
    n :: l.dropWhile (fun e => decide (e.priority ≤ n.priority))

/-- The entries of a queue from head to tail; an absent queue holds none. -/
def entries : Option PriorityQueue → List Node
  | none => []
  | some q => q.head

/-- The entries a `pq_print` run went through, read off what it wrote: each call of
`print_func` on a payload with the priority line that follows it. -/
def traversed : List Output → List Node
  | [] => []
  | Output.print_func d :: Output.priority_line p :: rest => ⟨d, p⟩ :: traversed rest
  | _ :: rest => traversed rest

/-- Whether a call is an insert of the payload and priority of entry `e`. -/
def Op.inserts (e : Node) : Op → Bool
  | Op.insert d p _ => decide (d = e.data ∧ p = e.priority)
  | Op.pop _ _ => false

/-- The entries of priority `k`, in the order they have in `l`. -/
def with_priority (k : Int) (l : List Node) : List Node :=
  l.filter (fun e => decide (e.priority = k))

/-- The entries equal to `x` or to `y`, in the order they have in `l`. -/
def either (x y : Node) (l : List Node) : List Node :=
  l.filter (fun e => decide (e = x ∨ e = y))

/-- A call sequence in which payload `a` and later payload `b` are inserted with the same
priority `P`, every allocation succeeding, with other calls before, between and after. -/
def two_inserts (ops0 ops1 ops2 : List Op) (a b : Nat) (P : Int) : List Op :=
  ops0 ++ Op.insert a P true :: (ops1 ++ Op.insert b P true :: ops2)

/-- The queue after `pq_print(queue, print_func)`. The function stores to nothing but its
local `temp`: it reads `queue->head`, `temp->data`, `temp->priority` and `temp->next`, so
the queue record and its chain are what they were before the call. -/
def pq_print_queue (queue : Option PriorityQueue) : Option PriorityQueue :=
  queue

/-- The arguments of the calls of `print_func` that a `pq_print` run made, in order. -/
def visitor_calls : List Output → List Nat
  | [] => []
  | Output.print_func d :: rest => d :: visitor_calls rest
  | _ :: rest => visitor_calls rest

/-- The insert calls for the entries `xs`, one after the other, the i-th with allocation
outcome `ms[i]`. -/
def insert_calls : List Node → List Bool → List Op
  | x :: xs, m :: ms => Op.insert x.data x.priority m :: insert_calls xs ms
  | _, _ => []

/-- The return codes of a sequence of calls, in order. -/
def rets (queue : Option PriorityQueue) : List Op → List Int
  | [] => []
  | o :: ops => o.ret queue :: rets (o.step queue) ops

/-- Two runs side by side: the pairs `(xs[i], ys[i])` of the steps `i` whose allocation
succeeds. -/
def accepted : List Node → List Node → List Bool → List (Node × Node)
  | x :: xs, y :: ys, m :: ms =>
    if m = true then (x, y) :: accepted xs ys ms else accepted xs ys ms
  | _, _, _ => []

/-- The list form of a successful insert, on two queues side by side. -/
def place2 (L : List (Node × Node)) (ab : Node × Node) : List (Node × Node) :=
  L.takeWhile (fun pr => decide (pr.1.priority ≤ ab.1.priority)) ++
    ab :: L.dropWhile (fun pr => decide (pr.1.priority ≤ ab.1.priority))

/-! ## Lemmas -/

theorem insert_after_eq (current : Node) (rest : List Node) (n : Node) :
    insert_after current rest n = current :: place rest n := by
  induction rest generalizing current with
  | nil => simp [insert_after, place]
  | cons x rest ih =>
    unfold insert_after
    by_cases h : x.priority ≤ n.priority
    · simp [h, ih, place, List.takeWhile_cons, List.dropWhile_cons]
    · simp [h, place, List.takeWhile_cons, List.dropWhile_cons]

theorem pq_insert_ok (q : PriorityQueue) (d : Nat) (p : Int) (hd : d ≠ 0) :
    pq_insert (some q) d p true = ⟨0, some ⟨place q.head ⟨d, p⟩⟩, [Output.inserted p]⟩ := by
  obtain ⟨l⟩ := q
  cases l with
  | nil => simp [pq_insert, hd, place]
  | cons h t =>
    by_cases hp : h.priority > p
    · have hp2 : ¬ h.priority ≤ p := by omega
      simp [pq_insert, hd, hp, hp2, place, List.takeWhile_cons, List.dropWhile_cons]
    · have hp2 : h.priority ≤ p := by omega
      simp [pq_insert, hd, hp, hp2, insert_after_eq, place, List.takeWhile_cons,
        List.dropWhile_cons]

theorem pq_insert_ret_cases (queue : Option PriorityQueue) (d : Nat) (p : Int) (m : Bool) :
    (pq_insert queue d p m).ret = 0 ∨ (pq_insert queue d p m).ret = -1 := by
  unfold pq_insert
  split
  · simp
  · split
    · simp
    · split
      · simp
      · split
        · simp
        · split <;> simp

theorem pq_insert_fail_iff (queue : Option PriorityQueue) (d : Nat) (p : Int) (m : Bool) :
    (pq_insert queue d p m).ret = -1 ↔ (queue = none ∨ d = 0 ∨ m = false) := by
  cases queue with
  | none => simp [pq_insert]
  | some q =>
    by_cases hd : d = 0
    · simp [pq_insert, hd]
    · cases m with
      | false => simp [pq_insert, hd]
      | true => simp [pq_insert_ok q d p hd, hd]

theorem pq_insert_fail_queue (queue : Option PriorityQueue) (d : Nat) (p : Int) (m : Bool)
    (h : queue = none ∨ d = 0 ∨ m = false) : (pq_insert queue d p m).queue = queue := by
  cases queue with
  | none => simp [pq_insert]
  | some q =>
    by_cases hd : d = 0
    · simp [pq_insert, hd]
    · cases m with
      | false => simp [pq_insert, hd]
      | true => simp [hd] at h

theorem sorted_iff_chain (l : List Node) : sorted l ↔ l.Chain' prio_le := by
  induction l with
  | nil => simp [sorted]
  | cons a l ih =>
    cases l with
    | nil => simp [sorted]
    | cons b rest =>
      rw [List.chain'_cons, ← ih]
      simp [sorted, prio_le]

theorem sorted_iff_pairwise (l : List Node) : sorted l ↔ l.Pairwise prio_le :=
  (sorted_iff_chain l).trans List.chain'_iff_pairwise

theorem place_perm (l : List Node) (n : Node) : (place l n).Perm (n :: l) := by
  unfold place
  refine List.perm_middle.trans (List.Perm.cons n ?_)
  rw [List.takeWhile_append_dropWhile]

theorem place_length (l : List Node) (n : Node) : (place l n).length = l.length + 1 := by
  simpa using (place_perm l n).length_eq

theorem dropWhile_gt (l : List Node) (p : Int) (hs : l.Pairwise prio_le) :
    ∀ b ∈ l.dropWhile (fun e => decide (e.priority ≤ p)), p < b.priority := by
  induction l with
  | nil => simp
  | cons x l ih =>
    intro b hb
    rw [List.dropWhile_cons] at hb
    by_cases hx : x.priority ≤ p
    · simp only [hx, decide_True, if_true] at hb
      exact ih (List.Pairwise.of_cons hs) b hb
    · simp only [hx, decide_False] at hb
      have hxb : x.priority ≤ b.priority := by
        rcases List.mem_cons.1 hb with rfl | hb2
        · exact le_refl _
        · exact List.rel_of_pairwise_cons hs hb2
      omega

theorem place_sorted (l : List Node) (n : Node) (hs : sorted l) : sorted (place l n) := by
  rw [sorted_iff_pairwise] at hs ⊢
  unfold place
  rw [List.pairwise_append]
  refine ⟨hs.sublist (List.takeWhile_sublist _), ?_, ?_⟩
  · rw [List.pairwise_cons]
    refine ⟨?_, hs.sublist (List.dropWhile_sublist _)⟩
    intro b hb
    have := dropWhile_gt l n.priority hs b hb
    unfold prio_le; omega
  · intro a ha b hb
    have h1 : a.priority ≤ n.priority := by
      have := List.mem_takeWhile_imp ha
      simpa using this
    have h2 : n.priority ≤ b.priority := by
      rcases List.mem_cons.1 hb with rfl | hb2
      · exact le_refl _
      · have := dropWhile_gt l n.priority hs b hb2
        omega
    unfold prio_le; omega

theorem entries_pq_insert_ok (queue : Option PriorityQueue) (d : Nat) (p : Int) (m : Bool)
    (h : (pq_insert queue d p m).ret = 0) :
    entries (pq_insert queue d p m).queue = place (entries queue) ⟨d, p⟩ := by
  cases queue with
  | none => simp [pq_insert] at h
  | some q =>
    by_cases hd : d = 0
    · simp [pq_insert, hd] at h
    · cases m with
      | false => simp [pq_insert, hd] at h
      | true => simp [pq_insert_ok q d p hd, entries]

theorem entries_pq_insert_fail (queue : Option PriorityQueue) (d : Nat) (p : Int) (m : Bool)
    (h : (pq_insert queue d p m).ret ≠ 0) :
    (pq_insert queue d p m).queue = queue := by
  have h1 : (pq_insert queue d p m).ret = -1 := by
    rcases pq_insert_ret_cases queue d p m with h0 | h0
    · exact absurd h0 h
    · exact h0
  exact pq_insert_fail_queue queue d p m ((pq_insert_fail_iff queue d p m).1 h1)

theorem pq_pop_ok_iff (queue : Option PriorityQueue) (od : Option Nat) (op : Option Int) :
    (pq_pop_highest queue od op).ret = 0 ↔
      (entries queue ≠ [] ∧ od ≠ none ∧ op ≠ none) := by
  cases queue with
  | none => simp [pq_pop_highest, entries]
  | some q =>
    obtain ⟨l⟩ := q
    cases od <;> cases op <;> cases l <;> simp [pq_pop_highest, entries]

theorem pq_pop_ret_cases (queue : Option PriorityQueue) (od : Option Nat) (op : Option Int) :
    (pq_pop_highest queue od op).ret = 0 ∨ (pq_pop_highest queue od op).ret = -1 := by
  cases queue with
  | none => simp [pq_pop_highest]
  | some q =>
    obtain ⟨l⟩ := q
    cases od <;> cases op <;> cases l <;> simp [pq_pop_highest]

theorem pq_pop_fail_eq (queue : Option PriorityQueue) (od : Option Nat) (op : Option Int)
    (h : (pq_pop_highest queue od op).ret ≠ 0) :
    pq_pop_highest queue od op = ⟨-1, queue, od, op, [Output.invalid_or_empty]⟩ := by
  cases queue with
  | none => simp [pq_pop_highest]
  | some q =>
    obtain ⟨l⟩ := q
    cases od <;> cases op <;> cases l <;> simp_all [pq_pop_highest]

theorem entries_pq_pop_ok (queue : Option PriorityQueue) (od : Option Nat) (op : Option Int)
    (h : (pq_pop_highest queue od op).ret = 0) :
    entries (pq_pop_highest queue od op).queue = (entries queue).tail := by
  cases queue with
  | none => simp [pq_pop_highest] at h
  | some q =>
    obtain ⟨l⟩ := q
    cases od <;> cases op <;> cases l <;> simp_all [pq_pop_highest, entries]

theorem sorted_tail (l : List Node) (h : sorted l) : sorted l.tail := by
  rw [sorted_iff_chain] at *
  exact List.Chain'.tail h

theorem pq_insert_sorted (queue : Option PriorityQueue) (d : Nat) (p : Int) (m : Bool)
    (hs : sorted (entries queue)) : sorted (entries (pq_insert queue d p m).queue) := by
  by_cases h : (pq_insert queue d p m).ret = 0
  · rw [entries_pq_insert_ok queue d p m h]
    exact place_sorted _ _ hs
  · rw [entries_pq_insert_fail queue d p m h]
    exact hs

theorem pq_pop_sorted (queue : Option PriorityQueue) (od : Option Nat) (op : Option Int)
    (hs : sorted (entries queue)) : sorted (entries (pq_pop_highest queue od op).queue) := by
  by_cases h : (pq_pop_highest queue od op).ret = 0
  · rw [entries_pq_pop_ok queue od op h]
    exact sorted_tail _ hs
  · rw [pq_pop_fail_eq queue od op h]
    exact hs

theorem step_sorted (queue : Option PriorityQueue) (o : Op) (hs : sorted (entries queue)) :
    sorted (entries (o.step queue)) := by
  cases o with
  | insert d p m => exact pq_insert_sorted queue d p m hs
  | pop od op => exact pq_pop_sorted queue od op hs

theorem run_sorted (queue : Option PriorityQueue) (ops : List Op)
    (hs : sorted (entries queue)) : sorted (entries (run queue ops)) := by
  induction ops generalizing queue with
  | nil => exact hs
  | cons o ops ih => exact ih _ (step_sorted queue o hs)

theorem pq_create_entries (m : Bool) : entries (pq_create m).queue = [] := by
  cases m <;> rfl

theorem sorted_adjacent (l : List Node) (hs : sorted l) (i : Nat) (a b : Node)
    (ha : l[i]? = some a) (hb : l[i + 1]? = some b) : a.priority ≤ b.priority := by
  induction l generalizing i with
  | nil => simp at ha
  | cons x l ih =>
    cases i with
    | zero =>
      cases l with
      | nil => simp at hb
      | cons y l =>
        simp at ha hb
        subst ha; subst hb
        exact hs.1
    | succ i =>
      simp at ha hb
      exact ih (sorted_tail _ hs) i ha hb

theorem pop_until_fail_entries (queue : Option PriorityQueue) (fuel : Nat) (d : Nat) (p : Int)
    (hf : (entries queue).length < fuel) :
    ∃ q, pop_until_fail fuel queue d p = some (entries queue, q) ∧ entries q = [] ∧
      (queue = none ↔ q = none) := by
  induction fuel generalizing queue d p with
  | zero => omega
  | succ fuel ih =>
    cases queue with
    | none => exact ⟨none, by simp [pop_until_fail, pq_pop_highest, entries], rfl, by simp⟩
    | some q =>
      obtain ⟨l⟩ := q
      cases l with
      | nil =>
        exact ⟨some ⟨[]⟩, by simp [pop_until_fail, pq_pop_highest, entries], rfl, by simp⟩
      | cons x l =>
        have hl : (entries (some ⟨l⟩)).length < fuel := by
          simp [entries] at hf ⊢; omega
        obtain ⟨q2, h1, h2, h3⟩ := ih (some ⟨l⟩) x.data x.priority hl
        refine ⟨q2, ?_, h2, ?_⟩
        · simp [pop_until_fail, pq_pop_highest, h1, entries]
        · simpa using h3

theorem run_length (queue : Option PriorityQueue) (ops : List Op) :
    (entries (run queue ops)).length + pops_ok queue ops =
      (entries queue).length + inserts_ok queue ops := by
  induction ops generalizing queue with
  | nil => simp [run, pops_ok, inserts_ok]
  | cons o ops ih =>
    cases o with
    | insert d p m =>
      have := ih (pq_insert queue d p m).queue
      simp only [run, Op.step, pops_ok, inserts_ok]
      by_cases h : (pq_insert queue d p m).ret = 0
      · rw [entries_pq_insert_ok queue d p m h, place_length] at this
        simp only [h, if_true]
        omega
      · rw [entries_pq_insert_fail queue d p m h] at this ⊢
        simp only [h, if_false]
        omega
    | pop od op =>
      have := ih (pq_pop_highest queue od op).queue
      simp only [run, Op.step, pops_ok, inserts_ok]
      by_cases h : (pq_pop_highest queue od op).ret = 0
      · rw [entries_pq_pop_ok queue od op h] at this
        have hne := ((pq_pop_ok_iff queue od op).1 h).1
        have hlen : (entries queue).tail.length + 1 = (entries queue).length := by
          cases hq : entries queue with
          | nil => exact absurd hq hne
          | cons x l => simp
        simp only [h, if_true]
        omega
      · have h2 : (pq_pop_highest queue od op).queue = queue := by
          rw [pq_pop_fail_eq queue od op h]
        rw [h2] at this ⊢
        simp only [h, if_false]
        omega

theorem traversed_pq_print_loop (l : List Node) (rest : List Output)
    (hr : traversed rest = []) :
    traversed (pq_print_loop l ++ rest) = l := by
  induction l with
  | nil => simpa [pq_print_loop] using hr
  | cons x l ih =>
    obtain ⟨d, p⟩ := x
    simp [pq_print_loop, traversed, ih]

theorem traversed_pq_print (queue : Option PriorityQueue) :
    traversed (pq_print queue) = entries queue := by
  cases queue with
  | none => rfl
  | some q =>
    have h := traversed_pq_print_loop q.head [Output.footer] (by simp [traversed])
    cases hl : pq_print_loop q.head ++ [Output.footer] with
    | nil => simp at hl
    | cons y ys =>
      rw [hl] at h
      cases y <;> simp_all [pq_print, traversed, entries]

theorem eraseIdx_middle (l1 l2 : List Node) (n : Node) :
    (l1 ++ n :: l2).eraseIdx l1.length = l1 ++ l2 := by
  induction l1 with
  | nil => simp
  | cons x l1 ih => simp [ih]

theorem place_count (l : List Node) (n : Node) :
    (place l n).count n = l.count n + 1 := by
  rw [(place_perm l n).count_eq]
  simp

theorem place_sublist (l : List Node) (n : Node) : l.Sublist (place l n) := by
  have h : (l.takeWhile (fun e => decide (e.priority ≤ n.priority)) ++
      l.dropWhile (fun e => decide (e.priority ≤ n.priority))).Sublist (place l n) := by
    unfold place
    exact List.Sublist.append (List.Sublist.refl _) (List.sublist_cons_self _ _)
  rwa [List.takeWhile_append_dropWhile] at h

theorem with_priority_place (k : Int) (l : List Node) (n : Node) (hs : sorted l) :
    with_priority k (place l n) =
      with_priority k l ++ (if n.priority = k then [n] else []) := by
  have hgt := dropWhile_gt l n.priority ((sorted_iff_pairwise l).1 hs)
  have hsplit : with_priority k l =
      with_priority k (l.takeWhile (fun e => decide (e.priority ≤ n.priority))) ++
      with_priority k (l.dropWhile (fun e => decide (e.priority ≤ n.priority))) := by
    unfold with_priority
    rw [← List.filter_append, List.takeWhile_append_dropWhile]
  by_cases hk : n.priority = k
  · subst hk
    have hdrop : with_priority n.priority
        (l.dropWhile (fun e => decide (e.priority ≤ n.priority))) = [] := by
      unfold with_priority
      rw [List.filter_eq_nil_iff]
      intro e he
      have := hgt e he
      simp only [decide_eq_true_eq]
      omega
    rw [hsplit, hdrop]
    unfold with_priority at hdrop ⊢
    simp [place, List.filter_append, List.filter_cons, hdrop]
  · rw [hsplit]
    unfold with_priority
    simp [place, List.filter_append, List.filter_cons, hk]

theorem foldl_place_sorted (xs l : List Node) (hs : sorted l) :
    sorted (xs.foldl place l) := by
  induction xs generalizing l with
  | nil => exact hs
  | cons x xs ih => exact ih _ (place_sorted l x hs)

theorem with_priority_foldl_place (k : Int) (xs l : List Node) (hs : sorted l) :
    with_priority k (xs.foldl place l) = with_priority k l ++ with_priority k xs := by
  induction xs generalizing l with
  | nil => simp [with_priority]
  | cons x xs ih =>
    rw [List.foldl_cons, ih _ (place_sorted l x hs), with_priority_place k l x hs]
    by_cases hk : x.priority = k <;> simp [with_priority, List.filter_cons, hk]

theorem foldl_place_perm (xs l : List Node) : (xs.foldl place l).Perm (l ++ xs) := by
  induction xs generalizing l with
  | nil => simp
  | cons x xs ih =>
    rw [List.foldl_cons]
    refine (ih (place l x)).trans ?_
    refine ((place_perm l x).append_right xs).trans ?_
    have hm : (l ++ x :: xs).Perm (x :: (l ++ xs)) := List.perm_middle
    simpa using hm.symm

theorem run_insert_ops (q : PriorityQueue) (xs : List Node) (hx : ∀ x ∈ xs, x.data ≠ 0) :
    run (some q) (insert_ops xs) = some ⟨xs.foldl place q.head⟩ := by
  induction xs generalizing q with
  | nil => rfl
  | cons x xs ih =>
    have hd : x.data ≠ 0 := hx x (List.mem_cons_self _ _)
    have hrest : ∀ y ∈ xs, y.data ≠ 0 := fun y hy => hx y (List.mem_cons_of_mem _ hy)
    simp only [insert_ops, List.map_cons, run, Op.step, pq_insert_ok q x.data x.priority hd]
    exact ih ⟨place q.head ⟨x.data, x.priority⟩⟩ hrest

theorem with_priority_orderedInsert (k : Int) (a : Node) (l : List Node) :
    with_priority k (l.orderedInsert prio_le a) = with_priority k (a :: l) := by
  induction l with
  | nil => simp
  | cons b l ih =>
    by_cases hab : prio_le a b
    · simp [List.orderedInsert, hab]
    · have hlt : b.priority < a.priority := by
        unfold prio_le at hab; omega
      unfold with_priority at ih ⊢
      simp only [List.orderedInsert, hab, if_false, List.filter_cons, ih]
      by_cases h1 : a.priority = k
      · have h2 : ¬ b.priority = k := by omega
        simp [h1, h2]
      · simp [h1]

theorem with_priority_stable_sort (k : Int) (xs : List Node) :
    with_priority k (stable_sort_by_priority xs) = with_priority k xs := by
  induction xs with
  | nil => rfl
  | cons a xs ih =>
    unfold stable_sort_by_priority at ih ⊢
    rw [List.insertionSort, with_priority_orderedInsert]
    unfold with_priority at ih ⊢
    simp only [List.filter_cons, ih]

theorem sorted_stable_sort (xs : List Node) : sorted (stable_sort_by_priority xs) :=
  (sorted_iff_pairwise _).2 (List.sorted_insertionSort prio_le xs)

theorem sorted_head_le (a : Node) (l : List Node) (hs : sorted (a :: l)) :
    ∀ e ∈ a :: l, a.priority ≤ e.priority := by
  intro e he
  rcases List.mem_cons.1 he with rfl | h
  · exact le_refl _
  · exact List.rel_of_pairwise_cons ((sorted_iff_pairwise _).1 hs) h

theorem sorted_ext (l1 l2 : List Node) (h1 : sorted l1) (h2 : sorted l2)
    (h : ∀ k, with_priority k l1 = with_priority k l2) : l1 = l2 := by
  induction l1 generalizing l2 with
  | nil =>
    cases l2 with
    | nil => rfl
    | cons b t2 =>
      have := h b.priority
      simp [with_priority, List.filter_cons] at this
  | cons a t1 ih =>
    cases l2 with
    | nil =>
      have := h a.priority
      simp [with_priority, List.filter_cons] at this
    | cons b t2 =>
      have ha : a ∈ b :: t2 := by
        have hm : a ∈ with_priority a.priority (a :: t1) := by
          simp [with_priority, List.filter_cons]
        rw [h a.priority] at hm
        exact List.mem_of_mem_filter hm
      have hb : b ∈ a :: t1 := by
        have hm : b ∈ with_priority b.priority (b :: t2) := by
          simp [with_priority, List.filter_cons]
        rw [← h b.priority] at hm
        exact List.mem_of_mem_filter hm
      have hle1 := sorted_head_le b t2 h2 a ha
      have hle2 := sorted_head_le a t1 h1 b hb
      have hp : a.priority = b.priority := by omega
      have hk := h a.priority
      simp only [with_priority, List.filter_cons, hp, decide_True, if_true] at hk
      have hab : a = b := (List.cons.inj hk).1
      subst hab
      have htail : t1 = t2 := by
        apply ih t2 (sorted_tail _ h1) (sorted_tail _ h2)
        intro k
        have hk2 := h k
        unfold with_priority at hk2 ⊢
        by_cases hak : a.priority = k
        · simp only [List.filter_cons, hak, decide_True, if_true] at hk2
          exact (List.cons.inj hk2).2
        · simpa [List.filter_cons, hak] using hk2
      rw [htail]

theorem either_split (x y : Node) (l : List Node) (c : Node → Bool) :
    either x y l = either x y (l.takeWhile c) ++ either x y (l.dropWhile c) := by
  unfold either
  rw [← List.filter_append, List.takeWhile_append_dropWhile]

theorem either_place (x y : Node) (l : List Node) (n : Node) :
    either x y (place l n) =
      either x y (l.takeWhile (fun e => decide (e.priority ≤ n.priority))) ++
        (if n = x ∨ n = y then [n] else []) ++
        either x y (l.dropWhile (fun e => decide (e.priority ≤ n.priority))) := by
  unfold either place
  by_cases h : n = x ∨ n = y <;> simp [List.filter_append, List.filter_cons, h]

theorem either_place_other (x y : Node) (l : List Node) (n : Node) (hx : n ≠ x)
    (hy : n ≠ y) : either x y (place l n) = either x y l := by
  rw [either_place, either_split x y l (fun e => decide (e.priority ≤ n.priority))]
  simp [hx, hy]

theorem step_either_suffix (x y : Node) (queue : Option PriorityQueue) (o : Op)
    (hx : o.inserts x = false) (hy : o.inserts y = false) :
    either x y (entries (o.step queue)) <:+ either x y (entries queue) := by
  cases o with
  | insert d p m =>
    simp only [Op.step]
    by_cases h : (pq_insert queue d p m).ret = 0
    · have hnx : (⟨d, p⟩ : Node) ≠ x := by
        intro hn
        subst hn
        simp [Op.inserts] at hx
      have hny : (⟨d, p⟩ : Node) ≠ y := by
        intro hn
        subst hn
        simp [Op.inserts] at hy
      rw [entries_pq_insert_ok queue d p m h, either_place_other x y _ _ hnx hny]
    · rw [entries_pq_insert_fail queue d p m h]
  | pop od op =>
    simp only [Op.step]
    by_cases h : (pq_pop_highest queue od op).ret = 0
    · rw [entries_pq_pop_ok queue od op h]
      unfold either
      exact List.IsSuffix.filter _ (List.tail_suffix _)
    · rw [pq_pop_fail_eq queue od op h]

theorem run_either_suffix (x y : Node) (queue : Option PriorityQueue) (ops : List Op)
    (h : ∀ o ∈ ops, o.inserts x = false ∧ o.inserts y = false) :
    either x y (entries (run queue ops)) <:+ either x y (entries queue) := by
  induction ops generalizing queue with
  | nil => exact List.suffix_refl _
  | cons o ops ih =>
    have ho := h o (List.mem_cons_self _ _)
    exact (ih (o.step queue) (fun o2 h2 => h o2 (List.mem_cons_of_mem _ h2))).trans
      (step_either_suffix x y queue o ho.1 ho.2)

theorem run_append (queue : Option PriorityQueue) (ops1 ops2 : List Op) :
    run queue (ops1 ++ ops2) = run (run queue ops1) ops2 := by
  induction ops1 generalizing queue with
  | nil => rfl
  | cons o ops1 ih => exact ih (o.step queue)

theorem step_some (q : PriorityQueue) (o : Op) : ∃ q2, o.step (some q) = some q2 := by
  cases o with
  | insert d p m =>
    by_cases h : (pq_insert (some q) d p m).ret = 0
    · by_cases hd : d = 0
      · simp [pq_insert, hd] at h
      · cases m with
        | false => simp [pq_insert, hd] at h
        | true =>
          exact ⟨⟨place q.head ⟨d, p⟩⟩, by simp only [Op.step, pq_insert_ok q d p hd]⟩
    · exact ⟨q, entries_pq_insert_fail (some q) d p m h⟩
  | pop od op =>
    obtain ⟨l⟩ := q
    cases od <;> cases op <;> cases l <;> simp [Op.step, pq_pop_highest]

theorem run_some (q : PriorityQueue) (ops : List Op) : ∃ q2, run (some q) ops = some q2 := by
  induction ops generalizing q with
  | nil => exact ⟨q, rfl⟩
  | cons o ops ih =>
    obtain ⟨q1, h1⟩ := step_some q o
    obtain ⟨q2, h2⟩ := ih q1
    exact ⟨q2, by simp only [run, h1, h2]⟩

/-- Inserting an entry `y` of the priority of `x` into a sorted chain in which the only
entry among `x`, `y` is at most one `x` puts `y` after that `x`. -/
theorem either_place_second (x y : Node) (l : List Node) (hp : x.priority = y.priority)
    (hs : sorted l) (h : either x y l <:+ [x]) :
    either x y (place l y) <:+ [x, y] := by
  have hgt := dropWhile_gt l y.priority ((sorted_iff_pairwise l).1 hs)
  have hsplit := either_split x y l (fun e => decide (e.priority ≤ y.priority))
  have hdrop : either x y (l.dropWhile (fun e => decide (e.priority ≤ y.priority))) = [] := by
    unfold either
    rw [List.filter_eq_nil_iff]
    intro e he hc
    have h1 := hgt e he
    simp only [decide_eq_true_eq] at hc
    rcases hc with rfl | rfl
    · omega
    · omega
  rw [hdrop, List.append_nil] at hsplit
  rw [either_place, hdrop, ← hsplit]
  simp only [or_true, if_true, List.append_nil]
  obtain ⟨t, ht⟩ := h
  exact ⟨t, by rw [← List.append_assoc, ht]; rfl⟩

theorem either_eq_pair_split (x y : Node) (l : List Node) (h : either x y l = [x, y]) :
    ∃ l1 l2 l3, l = l1 ++ x :: (l2 ++ y :: l3) ∧
      ∀ e ∈ l1 ++ (l2 ++ l3), e ≠ x ∧ e ≠ y := by
  unfold either at h
  obtain ⟨l1, r, hl, h1, _, hr⟩ := List.filter_eq_cons_iff.1 h
  obtain ⟨l2, l3, hl2, h2, _, h3⟩ := List.filter_eq_cons_iff.1 hr
  refine ⟨l1, l2, l3, by rw [hl, hl2], ?_⟩
  intro e he
  rw [List.filter_eq_nil_iff] at h3
  have : ¬ (decide (e = x ∨ e = y) = true) := by
    rcases List.mem_append.1 he with h | h
    · exact h1 e h
    · rcases List.mem_append.1 h with h | h
      · exact h2 e h
      · exact h3 e h
  simpa [not_or] using this

theorem either_place_first (x y : Node) (l : List Node) (h : either x y l = []) :
    either x y (place l x) = [x] := by
  have hsplit := either_split x y l (fun e => decide (e.priority ≤ x.priority))
  rw [h] at hsplit
  obtain ⟨h1, h2⟩ := List.append_eq_nil.1 hsplit.symm
  rw [either_place, h1, h2]
  simp

theorem run_two_inserts (ops0 ops1 ops2 : List Op) (a b : Nat) (P : Int) (ha : a ≠ 0)
    (hb : b ≠ 0)
    (hfresh : ∀ o ∈ ops0 ++ (ops1 ++ ops2),
      o.inserts ⟨a, P⟩ = false ∧ o.inserts ⟨b, P⟩ = false) :
    either ⟨a, P⟩ ⟨b, P⟩
        (entries (run (pq_create true).queue (two_inserts ops0 ops1 ops2 a b P))) <:+
      [⟨a, P⟩, ⟨b, P⟩] := by
  have hf0 : ∀ o ∈ ops0, o.inserts ⟨a, P⟩ = false ∧ o.inserts ⟨b, P⟩ = false :=
    fun o ho => hfresh o (List.mem_append_left _ ho)
  have hf1 : ∀ o ∈ ops1, o.inserts ⟨a, P⟩ = false ∧ o.inserts ⟨b, P⟩ = false :=
    fun o ho => hfresh o (List.mem_append_right _ (List.mem_append_left _ ho))
  have hf2 : ∀ o ∈ ops2, o.inserts ⟨a, P⟩ = false ∧ o.inserts ⟨b, P⟩ = false :=
    fun o ho => hfresh o (List.mem_append_right _ (List.mem_append_right _ ho))
  have hc : (pq_create true).queue = some ⟨[]⟩ := rfl
  obtain ⟨q0, hq0⟩ := run_some ⟨[]⟩ ops0
  have hs0 : sorted (entries (some q0)) := by
    rw [← hq0]
    exact run_sorted _ ops0 trivial
  have he0 : either ⟨a, P⟩ ⟨b, P⟩ (entries (some q0)) = [] := by
    have := run_either_suffix ⟨a, P⟩ ⟨b, P⟩ (some ⟨[]⟩) ops0 hf0
    rw [hq0] at this
    exact List.suffix_nil.1 this
  obtain ⟨q2, hq2⟩ := run_some ⟨place q0.head ⟨a, P⟩⟩ ops1
  have hs2 : sorted (entries (some q2)) := by
    rw [← hq2]
    exact run_sorted _ ops1 (place_sorted _ _ hs0)
  have he2 : either ⟨a, P⟩ ⟨b, P⟩ (entries (some q2)) <:+ [⟨a, P⟩] := by
    have := run_either_suffix ⟨a, P⟩ ⟨b, P⟩ (some ⟨place q0.head ⟨a, P⟩⟩) ops1 hf1
    rw [hq2] at this
    have h1 := either_place_first ⟨a, P⟩ ⟨b, P⟩ q0.head he0
    simp only [entries] at this
    rwa [h1] at this
  have he3 := either_place_second ⟨a, P⟩ ⟨b, P⟩ q2.head rfl hs2 he2
  have he4 := run_either_suffix ⟨a, P⟩ ⟨b, P⟩ (some ⟨place q2.head ⟨b, P⟩⟩) ops2 hf2
  have hrun : run (pq_create true).queue (two_inserts ops0 ops1 ops2 a b P) =
      run (some ⟨place q2.head ⟨b, P⟩⟩) ops2 := by
    unfold two_inserts
    rw [hc, run_append, hq0]
    simp only [run, Op.step, pq_insert_ok q0 a P ha]
    rw [run_append, hq2]
    simp only [run, Op.step, pq_insert_ok q2 b P hb]
  rw [hrun]
  exact he4.trans he3

theorem visitor_calls_pq_print_loop (l : List Node) (rest : List Output) :
    visitor_calls (pq_print_loop l ++ rest) = l.map Node.data ++ visitor_calls rest := by
  induction l with
  | nil => simp [pq_print_loop]
  | cons x l ih => simp [pq_print_loop, visitor_calls, ih]

theorem visitor_calls_pq_print (queue : Option PriorityQueue) :
    visitor_calls (pq_print queue) = (entries queue).map Node.data := by
  cases queue with
  | none => rfl
  | some q =>
    simp [pq_print, visitor_calls, visitor_calls_pq_print_loop, entries]

theorem prefix_takeWhile (c : Node → Bool) (pre l : List Node) (hp : pre <+: l)
    (hc : ∀ e ∈ pre, c e = true) : pre <+: l.takeWhile c := by
  induction pre generalizing l with
  | nil => exact List.nil_prefix
  | cons a pre ih =>
    obtain ⟨t, rfl⟩ := hp
    have ha : c a = true := hc a (List.mem_cons_self _ _)
    have := ih (pre ++ t) (List.prefix_append _ _)
      (fun e he => hc e (List.mem_cons_of_mem _ he))
    simp only [List.cons_append, List.takeWhile_cons, ha, if_true]
    exact (List.cons_prefix_cons).2 ⟨rfl, this⟩

theorem takeWhile_eq_nil_cases (l : List Node) (p : Int) :
    l.takeWhile (fun e => decide (e.priority ≤ p)) = [] ↔
      (l = [] ∨ ∃ h t, l = h :: t ∧ p < h.priority) := by
  cases l with
  | nil => simp
  | cons h t =>
    by_cases hp : h.priority ≤ p
    · simp [List.takeWhile_cons, hp]
    · simp [List.takeWhile_cons, hp]
      omega

theorem takeWhile_dropWhile_nil (c : Node → Bool) (l : List Node) :
    (l.dropWhile c).takeWhile c = [] := by
  induction l with
  | nil => rfl
  | cons x l ih =>
    by_cases hx : c x = true
    · simpa [List.dropWhile_cons, hx] using ih
    · simp [List.dropWhile_cons, List.takeWhile_cons, hx]

theorem takeWhile_reinsert (c : Node → Bool) (l : List Node) (x : Node) (hx : c x = true) :
    (l.takeWhile c ++ x :: l.dropWhile c).takeWhile c = l.takeWhile c ++ [x] ∧
    (l.takeWhile c ++ x :: l.dropWhile c).dropWhile c = l.dropWhile c := by
  have hall : ∀ e ∈ l.takeWhile c, c e = true := fun e he => List.mem_takeWhile_imp he
  have ht := takeWhile_dropWhile_nil c l
  have hd : (l.dropWhile c).dropWhile c = l.dropWhile c := List.dropWhile_idempotent c l
  rw [List.takeWhile_append_of_pos hall, List.dropWhile_append_of_pos hall,
    List.takeWhile_cons, List.dropWhile_cons, hx]
  simp only [if_true, ht, hd]
  exact ⟨trivial, trivial⟩

theorem place_place_same (l : List Node) (x y : Node) (hp : x.priority = y.priority) :
    place (place l x) y =
      l.takeWhile (fun e => decide (e.priority ≤ x.priority)) ++
        x :: y :: l.dropWhile (fun e => decide (e.priority ≤ x.priority)) := by
  have h := takeWhile_reinsert (fun e => decide (e.priority ≤ x.priority)) l x (by simp)
  unfold place
  rw [← hp, h.1, h.2]
  simp

theorem place_place_comm (l : List Node) (x y : Node) (hs : sorted l)
    (hne : x.priority ≠ y.priority) : place (place l x) y = place (place l y) x := by
  apply sorted_ext _ _ (place_sorted _ _ (place_sorted _ _ hs))
    (place_sorted _ _ (place_sorted _ _ hs))
  intro k
  rw [with_priority_place k _ y (place_sorted _ _ hs), with_priority_place k l x hs,
    with_priority_place k _ x (place_sorted _ _ hs), with_priority_place k l y hs]
  by_cases h1 : x.priority = k
  · have h2 : ¬ y.priority = k := fun h => hne (h1.trans h.symm)
    simp [h1, h2]
  · simp [h1]

theorem map_fst_place2 (L : List (Node × Node)) (ab : Node × Node) :
    (place2 L ab).map Prod.fst = place (L.map Prod.fst) ab.1 := by
  induction L with
  | nil => rfl
  | cons pr L ih =>
    unfold place2 place at ih ⊢
    by_cases h : pr.1.priority ≤ ab.1.priority
    · simp only [List.map_cons, List.takeWhile_cons, List.dropWhile_cons, h, decide_True,
        if_true, List.cons_append, ih]
    · simp [List.takeWhile_cons, List.dropWhile_cons, h]

theorem map_snd_place2 (L : List (Node × Node)) (ab : Node × Node)
    (hL : ∀ pr ∈ L, pr.1.priority = pr.2.priority) (hab : ab.1.priority = ab.2.priority) :
    (place2 L ab).map Prod.snd = place (L.map Prod.snd) ab.2 := by
  induction L with
  | nil => rfl
  | cons pr L ih =>
    have hpr := hL pr (List.mem_cons_self _ _)
    have ih2 := ih (fun x hx => hL x (List.mem_cons_of_mem _ hx))
    unfold place2 place at ih2 ⊢
    by_cases h : pr.1.priority ≤ ab.1.priority
    · have h2 : pr.2.priority ≤ ab.2.priority := by omega
      simp only [List.map_cons, List.takeWhile_cons, List.dropWhile_cons, h, h2, decide_True,
        if_true, List.cons_append, ih2]
    · have h2 : ¬ pr.2.priority ≤ ab.2.priority := by omega
      simp [List.takeWhile_cons, List.dropWhile_cons, h, h2]

theorem place2_perm (L : List (Node × Node)) (ab : Node × Node) :
    (place2 L ab).Perm (ab :: L) := by
  unfold place2
  refine List.perm_middle.trans (List.Perm.cons ab ?_)
  rw [List.takeWhile_append_dropWhile]

theorem accepted_subset_zip (xs ys : List Node) (ms : List Bool) :
    ∀ pr ∈ accepted xs ys ms, pr ∈ xs.zip ys := by
  induction xs generalizing ys ms with
  | nil => simp [accepted]
  | cons x xs ih =>
    cases ys with
    | nil => simp [accepted]
    | cons y ys =>
      cases ms with
      | nil => simp [accepted]
      | cons m ms =>
        intro pr hpr
        cases m with
        | false =>
          simp only [accepted, Bool.false_eq_true, if_false] at hpr
          exact List.mem_cons_of_mem _ (ih ys ms pr hpr)
        | true =>
          simp only [accepted, if_true, List.mem_cons] at hpr
          rcases hpr with rfl | h
          · exact List.mem_cons_self _ _
          · exact List.mem_cons_of_mem _ (ih ys ms pr h)

theorem paired_inserts (xs ys : List Node) (ms : List Bool) (L : List (Node × Node))
    (hp : xs.map Node.priority = ys.map Node.priority)
    (hx : ∀ x ∈ xs, x.data ≠ 0) (hy : ∀ y ∈ ys, y.data ≠ 0)
    (hL : ∀ pr ∈ L, pr.1.priority = pr.2.priority) :
    rets (some ⟨L.map Prod.fst⟩) (insert_calls xs ms) =
      rets (some ⟨L.map Prod.snd⟩) (insert_calls ys ms) ∧
    ∃ L2 : List (Node × Node),
      run (some ⟨L.map Prod.fst⟩) (insert_calls xs ms) = some ⟨L2.map Prod.fst⟩ ∧
      run (some ⟨L.map Prod.snd⟩) (insert_calls ys ms) = some ⟨L2.map Prod.snd⟩ ∧
      (∀ pr ∈ L2, pr.1.priority = pr.2.priority) ∧
      L2.Perm (L ++ accepted xs ys ms) := by
  induction xs generalizing ys ms L with
  | nil =>
    cases ys with
    | nil => exact ⟨by simp [insert_calls, rets], L, by simp [insert_calls, run],
        by simp [insert_calls, run], hL, by simp [accepted]⟩
    | cons y ys => simp at hp
  | cons x xs ih =>
    cases ys with
    | nil => simp at hp
    | cons y ys =>
      cases ms with
      | nil => exact ⟨by simp [insert_calls, rets], L, by simp [insert_calls, run],
          by simp [insert_calls, run], hL, by simp [accepted]⟩
      | cons m ms =>
        simp only [List.map_cons, List.cons.injEq] at hp
        have hxd : x.data ≠ 0 := hx x (List.mem_cons_self _ _)
        have hyd : y.data ≠ 0 := hy y (List.mem_cons_self _ _)
        have hx2 : ∀ e ∈ xs, e.data ≠ 0 := fun e he => hx e (List.mem_cons_of_mem _ he)
        have hy2 : ∀ e ∈ ys, e.data ≠ 0 := fun e he => hy e (List.mem_cons_of_mem _ he)
        cases m with
        | false =>
          obtain ⟨hr, L2, h1, h2, h3, h4⟩ := ih ys ms L hp.2 hx2 hy2 hL
          have fx : pq_insert (some ⟨L.map Prod.fst⟩) x.data x.priority false =
              ⟨-1, some ⟨L.map Prod.fst⟩, [Output.node_alloc_failed]⟩ := by
            simp [pq_insert, hxd]
          have fy : pq_insert (some ⟨L.map Prod.snd⟩) y.data y.priority false =
              ⟨-1, some ⟨L.map Prod.snd⟩, [Output.node_alloc_failed]⟩ := by
            simp [pq_insert, hyd]
          refine ⟨?_, L2, ?_, ?_, h3, ?_⟩
          · simp only [insert_calls, rets, Op.ret, Op.step, fx, fy, hr]
          · simp only [insert_calls, run, Op.step, fx, h1]
          · simp only [insert_calls, run, Op.step, fy, h2]
          · simpa [accepted] using h4
        | true =>
          have hL2 : ∀ pr ∈ place2 L (x, y), pr.1.priority = pr.2.priority := by
            intro pr hpr
            rcases List.mem_cons.1 ((place2_perm L (x, y)).subset hpr) with rfl | h
            · exact hp.1
            · exact hL pr h
          obtain ⟨hr, L2, h1, h2, h3, h4⟩ := ih ys ms (place2 L (x, y)) hp.2 hx2 hy2 hL2
          rw [map_fst_place2] at hr h1
          rw [map_snd_place2 L (x, y) hL hp.1] at hr h2
          simp only at hr h1 h2
          have fx : pq_insert (some ⟨L.map Prod.fst⟩) x.data x.priority true =
              ⟨0, some ⟨place (L.map Prod.fst) x⟩, [Output.inserted x.priority]⟩ :=
            pq_insert_ok ⟨L.map Prod.fst⟩ x.data x.priority hxd
          have fy : pq_insert (some ⟨L.map Prod.snd⟩) y.data y.priority true =
              ⟨0, some ⟨place (L.map Prod.snd) y⟩, [Output.inserted y.priority]⟩ :=
            pq_insert_ok ⟨L.map Prod.snd⟩ y.data y.priority hyd
          refine ⟨?_, L2, ?_, ?_, h3, ?_⟩
          · simp only [insert_calls, rets, Op.ret, Op.step, fx, fy]
            exact congrArg _ hr
          · simp only [insert_calls, run, Op.step, fx]
            exact h1
          · simp only [insert_calls, run, Op.step, fy]
            exact h2
          · refine h4.trans ?_
            simp only [accepted, if_true]
            exact ((place2_perm L (x, y)).append_right _).trans List.perm_middle.symm

theorem pq_delete_loop_allocated (m : Memory) (chain : List HeapNode) (a : Nat) :
    (pq_delete_loop m chain).allocated a =
      if a ∈ chain.map HeapNode.addr then false else m.allocated a := by
  induction chain generalizing m with
  | nil => simp [pq_delete_loop]
  | cons x chain ih =>
    rw [pq_delete_loop, ih]
    by_cases h1 : a ∈ chain.map HeapNode.addr
    · simp [h1]
    · by_cases h2 : a = x.addr
      · simp [free, h2]
      · simp [free, h1, h2]

theorem pq_delete_loop_content (m : Memory) (chain : List HeapNode) :
    (pq_delete_loop m chain).content = m.content := by
  induction chain generalizing m with
  | nil => rfl
  | cons x chain ih =>
    rw [pq_delete_loop, ih]
    rfl

/-! ## The claims -/

/-- C1. Sortedness is an invariant of the queue: the queue `pq_create` returns has
non-decreasing priorities from head to tail; `pq_insert` (any payload, any priority,
whether it succeeds or not) and `pq_pop_highest` turn a queue with non-decreasing priorities
into one with non-decreasing priorities; hence in every queue reached from `pq_create` by
any sequence of inserts and pops, every two adjacent entries `e[i]`, `e[i+1]` satisfy
`e[i].priority <= e[i+1].priority`. -/
theorem sortedness_invariant :
    (∀ m, sorted (entries (pq_create m).queue)) ∧
    (∀ queue d p m, sorted (entries queue) →
      sorted (entries (pq_insert queue d p m).queue)) ∧
    (∀ queue od op, sorted (entries queue) →
      sorted (entries (pq_pop_highest queue od op).queue)) ∧
    (∀ m ops, sorted (entries (run (pq_create m).queue ops)) ∧
      ∀ i a b, (entries (run (pq_create m).queue ops))[i]? = some a →
        (entries (run (pq_create m).queue ops))[i + 1]? = some b →
        a.priority ≤ b.priority) := by
  have h0 : ∀ m, sorted (entries (pq_create m).queue) := by
    intro m
    rw [pq_create_entries]
    exact trivial
  refine ⟨h0, pq_insert_sorted, pq_pop_sorted, ?_⟩
  intro m ops
  have hs := run_sorted (pq_create m).queue ops (h0 m)
  exact ⟨hs, fun i a b ha hb => sorted_adjacent _ hs i a b ha hb⟩

/-- Witness for C1: inserting priority 2 into the queue holding priorities 1, 3 keeps it
sorted. -/
theorem sortedness_invariant_witness :
    sorted (entries (some ⟨[⟨7, 1⟩, ⟨8, 3⟩]⟩)) ∧
    sorted (entries (pq_insert (some ⟨[⟨7, 1⟩, ⟨8, 3⟩]⟩) 9 2 true).queue) :=
  ⟨by decide, sortedness_invariant.2.1 (some ⟨[⟨7, 1⟩, ⟨8, 3⟩]⟩) 9 2 true (by decide)⟩

/-- C2. Inserting any finite sequence of (payload, priority) pairs with non-null payloads
one by one into a freshly created queue and then popping until failure returns exactly the
stable sort of that sequence by priority: the popped sequence is in ascending priority
order, is a permutation of the inserted one, and for every priority the entries of that
priority come out in the order they were inserted. The pop loop ends, with the queue
empty, within one call more than there are entries. -/
theorem pops_are_stable_sort (xs : List Node) (hx : ∀ x ∈ xs, x.data ≠ 0) (fuel : Nat)
    (d : Nat) (p : Int) (hf : xs.length < fuel) :
    pop_until_fail fuel (run (pq_create true).queue (insert_ops xs)) d p =
      some (stable_sort_by_priority xs, some ⟨[]⟩) ∧
    sorted (stable_sort_by_priority xs) ∧
    (stable_sort_by_priority xs).Perm xs ∧
    ∀ k, with_priority k (stable_sort_by_priority xs) = with_priority k xs := by
  have hrun : run (pq_create true).queue (insert_ops xs) = some ⟨xs.foldl place []⟩ :=
    run_insert_ops ⟨[]⟩ xs hx
  have heq : xs.foldl place [] = stable_sort_by_priority xs := by
    apply sorted_ext _ _ (foldl_place_sorted xs [] trivial) (sorted_stable_sort xs)
    intro k
    rw [with_priority_foldl_place k xs [] trivial, with_priority_stable_sort]
    simp [with_priority]
  refine ⟨?_, sorted_stable_sort xs, List.perm_insertionSort prio_le xs,
    fun k => with_priority_stable_sort k xs⟩
  rw [hrun, heq]
  have hlen : (entries (some ⟨stable_sort_by_priority xs⟩)).length < fuel := by
    have := (List.perm_insertionSort prio_le xs).length_eq
    simp only [entries, stable_sort_by_priority]
    omega
  obtain ⟨q, hq, he, hn⟩ := pop_until_fail_entries (some ⟨stable_sort_by_priority xs⟩)
    fuel d p hlen
  rw [hq]
  cases q with
  | none => simp at hn
  | some q2 =>
    obtain ⟨l⟩ := q2
    simp only [entries] at he
    subst he
    rfl

/-- Witness for C2, the demo of `main`: inserting `v1..v4` (payloads 11..14) with
priorities 3, 1, 2, 1 pops priorities 1, 1, 2, 3 in payload order `v2, v4, v3, v1`. -/
theorem pops_are_stable_sort_witness :
    (∀ x ∈ [(⟨11, 3⟩ : Node), ⟨12, 1⟩, ⟨13, 2⟩, ⟨14, 1⟩], x.data ≠ 0) ∧
    pop_until_fail 5
        (run (pq_create true).queue (insert_ops [⟨11, 3⟩, ⟨12, 1⟩, ⟨13, 2⟩, ⟨14, 1⟩])) 0 0 =
      some ([⟨12, 1⟩, ⟨14, 1⟩, ⟨13, 2⟩, ⟨11, 3⟩], some ⟨[]⟩) :=
  ⟨by decide,
    (pops_are_stable_sort [⟨11, 3⟩, ⟨12, 1⟩, ⟨13, 2⟩, ⟨14, 1⟩] (by decide) 5 0 0
      (by decide)).1⟩

/-- C3. Stability (FIFO tie-break): on a freshly created queue, let payload `a` be
inserted with priority `P` and payload `b` be inserted later with the same priority `P`,
with any calls (inserts and pops, successful or not) before, between and after, none of
them another insert of `(a, P)` or `(b, P)`. If `(a, P)` is still in the queue at the end
(no pop removed it), then `(b, P)` is in the queue too, `(a, P)` is closer to the head than
`(b, P)`, each occurs once, and popping until failure yields `(a, P)` before `(b, P)`. -/
theorem fifo_among_equal_priorities (ops0 ops1 ops2 : List Op) (a b : Nat) (P : Int)
    (ha : a ≠ 0) (hb : b ≠ 0) (hab : a ≠ b)
    (hfresh : ∀ o ∈ ops0 ++ (ops1 ++ ops2),
      o.inserts ⟨a, P⟩ = false ∧ o.inserts ⟨b, P⟩ = false)
    (hA : ⟨a, P⟩ ∈ entries (run (pq_create true).queue (two_inserts ops0 ops1 ops2 a b P))) :
    ∃ l1 l2 l3,
      entries (run (pq_create true).queue (two_inserts ops0 ops1 ops2 a b P)) =
        l1 ++ ⟨a, P⟩ :: (l2 ++ ⟨b, P⟩ :: l3) ∧
      (∀ e ∈ l1 ++ (l2 ++ l3), e ≠ ⟨a, P⟩ ∧ e ≠ ⟨b, P⟩) ∧
      ∀ fuel d p, (l1 ++ ⟨a, P⟩ :: (l2 ++ ⟨b, P⟩ :: l3)).length < fuel →
        ∃ q, pop_until_fail fuel
            (run (pq_create true).queue (two_inserts ops0 ops1 ops2 a b P)) d p =
          some (l1 ++ ⟨a, P⟩ :: (l2 ++ ⟨b, P⟩ :: l3), q) := by
  have hsuf := run_two_inserts ops0 ops1 ops2 a b P ha hb hfresh
  have hmem : (⟨a, P⟩ : Node) ∈ either ⟨a, P⟩ ⟨b, P⟩
      (entries (run (pq_create true).queue (two_inserts ops0 ops1 ops2 a b P))) := by
    unfold either
    exact List.mem_filter.2 ⟨hA, by simp⟩
  have hpair : either ⟨a, P⟩ ⟨b, P⟩
      (entries (run (pq_create true).queue (two_inserts ops0 ops1 ops2 a b P))) =
      [⟨a, P⟩, ⟨b, P⟩] := by
    rcases List.suffix_cons_iff.1 hsuf with h | h
    · exact h
    · have := h.subset hmem
      simp at this
      exact absurd this hab
  obtain ⟨l1, l2, l3, hl, hne⟩ := either_eq_pair_split _ _ _ hpair
  refine ⟨l1, l2, l3, hl, hne, ?_⟩
  intro fuel d p hfuel
  rw [← hl] at hfuel ⊢
  obtain ⟨q, hq, _, _⟩ := pop_until_fail_entries _ fuel d p hfuel
  exact ⟨q, hq⟩

/-- Witness for C3: on a queue holding `(5, 1)`, insert `(7, 2)`, then `(6, 3)` and
`(9, 0)`, then `(8, 2)`, then pop once (removing `(9, 0)`) and insert `(4, 2)`. -/
theorem fifo_among_equal_priorities_witness :
    ∃ l1 l2 l3,
      entries (run (pq_create true).queue
          (two_inserts [Op.insert 5 1 true] [Op.insert 6 3 true, Op.insert 9 0 true]
            [Op.pop (some 0) (some 0), Op.insert 4 2 true] 7 8 2)) =
        l1 ++ ⟨7, 2⟩ :: (l2 ++ ⟨8, 2⟩ :: l3) ∧
      (∀ e ∈ l1 ++ (l2 ++ l3), e ≠ ⟨7, 2⟩ ∧ e ≠ ⟨8, 2⟩) ∧
      ∀ fuel d p, (l1 ++ (⟨7, 2⟩ : Node) :: (l2 ++ ⟨8, 2⟩ :: l3)).length < fuel →
        ∃ q, pop_until_fail fuel (run (pq_create true).queue
            (two_inserts [Op.insert 5 1 true] [Op.insert 6 3 true, Op.insert 9 0 true]
              [Op.pop (some 0) (some 0), Op.insert 4 2 true] 7 8 2)) d p =
          some (l1 ++ ⟨7, 2⟩ :: (l2 ++ ⟨8, 2⟩ :: l3), q) :=
  fifo_among_equal_priorities [Op.insert 5 1 true] [Op.insert 6 3 true, Op.insert 9 0 true]
    [Op.pop (some 0) (some 0), Op.insert 4 2 true] 7 8 2 (by decide) (by decide) (by decide)
    (by decide) (by decide)

/-- C4. Size conservation: a successful `pq_insert` makes the queue one entry longer, a
successful `pq_pop_highest` makes it one entry shorter, and after any sequence of calls on a
freshly created queue, `N` of them successful inserts and `M` successful pops, `M <= N`
and the queue holds exactly `N - M` entries. -/
theorem size_conservation :
    (∀ queue d p m, (pq_insert queue d p m).ret = 0 →
      (entries (pq_insert queue d p m).queue).length = (entries queue).length + 1) ∧
    (∀ queue od op, (pq_pop_highest queue od op).ret = 0 →
      (entries (pq_pop_highest queue od op).queue).length + 1 = (entries queue).length) ∧
    (∀ m ops, pops_ok (pq_create m).queue ops ≤ inserts_ok (pq_create m).queue ops ∧
      (entries (run (pq_create m).queue ops)).length =
        inserts_ok (pq_create m).queue ops - pops_ok (pq_create m).queue ops) := by
  refine ⟨?_, ?_, ?_⟩
  · intro queue d p m h
    rw [entries_pq_insert_ok queue d p m h, place_length]
  · intro queue od op h
    rw [entries_pq_pop_ok queue od op h]
    have hne := ((pq_pop_ok_iff queue od op).1 h).1
    cases hq : entries queue with
    | nil => exact absurd hq hne
    | cons x l => simp
  · intro m ops
    have := run_length (pq_create m).queue ops
    rw [pq_create_entries] at this
    simp only [List.length_nil] at this
    omega

/-- Witness for C4: the successful insert of a third entry gives a queue of three. -/
theorem size_conservation_witness :
    (pq_insert (some ⟨[⟨7, 1⟩, ⟨8, 3⟩]⟩) 9 2 true).ret = 0 ∧
    (entries (pq_insert (some ⟨[⟨7, 1⟩, ⟨8, 3⟩]⟩) 9 2 true).queue).length =
      (entries (some ⟨[⟨7, 1⟩, ⟨8, 3⟩]⟩)).length + 1 :=
  ⟨by decide, size_conservation.1 (some ⟨[⟨7, 1⟩, ⟨8, 3⟩]⟩) 9 2 true (by decide)⟩

/-- C5. On a non-empty sorted queue, called with two output cells, `pq_pop_highest`
returns 0, leaves the head entry's payload and priority in the output cells, that priority
is `<=` the priority of every entry that remains, and the queue that remains is the old
chain without its head. -/
theorem pop_returns_head (q : PriorityQueue) (h : Node) (t : List Node) (d : Nat) (p : Int)
    (hq : q.head = h :: t) (hs : sorted q.head) :
    (pq_pop_highest (some q) (some d) (some p)).ret = 0 ∧
    (pq_pop_highest (some q) (some d) (some p)).out_data = some h.data ∧
    (pq_pop_highest (some q) (some d) (some p)).out_priority = some h.priority ∧
    (pq_pop_highest (some q) (some d) (some p)).queue = some ⟨t⟩ ∧
    (∀ e ∈ t, h.priority ≤ e.priority) := by
  obtain ⟨l⟩ := q
  simp only at hq hs
  subst hq
  refine ⟨rfl, rfl, rfl, rfl, ?_⟩
  intro e he
  exact List.rel_of_pairwise_cons ((sorted_iff_pairwise _).1 hs) he

/-- Witness for C5: popping the queue with priorities 1, 1, 2. -/
theorem pop_returns_head_witness :
    sorted [(⟨12, 1⟩ : Node), ⟨14, 1⟩, ⟨13, 2⟩] ∧
    (pq_pop_highest (some ⟨[⟨12, 1⟩, ⟨14, 1⟩, ⟨13, 2⟩]⟩) (some 0) (some 0)).ret = 0 ∧
    (pq_pop_highest (some ⟨[⟨12, 1⟩, ⟨14, 1⟩, ⟨13, 2⟩]⟩) (some 0) (some 0)).out_data
      = some 12 ∧
    (pq_pop_highest (some ⟨[⟨12, 1⟩, ⟨14, 1⟩, ⟨13, 2⟩]⟩) (some 0) (some 0)).out_priority
      = some 1 ∧
    (pq_pop_highest (some ⟨[⟨12, 1⟩, ⟨14, 1⟩, ⟨13, 2⟩]⟩) (some 0) (some 0)).queue
      = some ⟨[⟨14, 1⟩, ⟨13, 2⟩]⟩ ∧
    (∀ e ∈ [(⟨14, 1⟩ : Node), ⟨13, 2⟩], (1 : Int) ≤ e.priority) :=
  ⟨by decide,
    pop_returns_head ⟨[⟨12, 1⟩, ⟨14, 1⟩, ⟨13, 2⟩]⟩ ⟨12, 1⟩ [⟨14, 1⟩, ⟨13, 2⟩] 0 0 rfl
      (by decide)⟩

/-- C7. Empty-pop error: on a queue that holds no entry, `pq_pop_highest` returns -1,
leaves both output cells and the queue as they were and only prints its message. The queue
just returned by `pq_create`, the absent (NULL) handle and the queue left by popping until
failure (every entry popped) are such queues, and the queue stays empty. -/
theorem empty_pop_fails :
    (∀ queue od op, entries queue = [] →
      pq_pop_highest queue od op = ⟨-1, queue, od, op, [Output.invalid_or_empty]⟩) ∧
    (∀ m, entries (pq_create m).queue = []) ∧
    entries none = [] ∧
    (∀ queue fuel d p, (entries queue).length < fuel →
      ∃ popped q, pop_until_fail fuel queue d p = some (popped, q) ∧ entries q = [] ∧
        ∀ od op, pq_pop_highest q od op = ⟨-1, q, od, op, [Output.invalid_or_empty]⟩) := by
  have h1 : ∀ queue od op, entries queue = [] →
      pq_pop_highest queue od op = ⟨-1, queue, od, op, [Output.invalid_or_empty]⟩ := by
    intro queue od op he
    apply pq_pop_fail_eq
    intro h0
    exact ((pq_pop_ok_iff queue od op).1 h0).1 he
  refine ⟨h1, pq_create_entries, rfl, ?_⟩
  intro queue fuel d p hf
  obtain ⟨q, hq, he, _⟩ := pop_until_fail_entries queue fuel d p hf
  exact ⟨entries queue, q, hq, he, fun od op => h1 q od op he⟩

/-- Witness for C7: a pop on the freshly created queue, with both output cells present. -/
theorem empty_pop_fails_witness :
    entries (pq_create true).queue = [] ∧
    pq_pop_highest (pq_create true).queue (some 5) (some 6) =
      ⟨-1, (pq_create true).queue, some 5, some 6, [Output.invalid_or_empty]⟩ :=
  ⟨by decide, empty_pop_fails.1 (pq_create true).queue (some 5) (some 6) (by decide)⟩

/-- C8. A failed insert is atomic: `pq_insert` reports failure (returns -1) exactly when
the queue handle is absent, the payload is absent or the node allocation fails, and
whenever it does not return 0 the queue after the call is the queue before it. -/
theorem failed_insert_atomic (queue : Option PriorityQueue) (d : Nat) (p : Int) (m : Bool) :
    ((pq_insert queue d p m).ret = -1 ↔ (queue = none ∨ d = 0 ∨ m = false)) ∧
    ((pq_insert queue d p m).ret ≠ 0 →
      (pq_insert queue d p m).queue = queue ∧
      entries (pq_insert queue d p m).queue = entries queue) := by
  refine ⟨pq_insert_fail_iff queue d p m, ?_⟩
  intro h
  have := entries_pq_insert_fail queue d p m h
  exact ⟨this, by rw [this]⟩

/-- Witness for C8: the insert of a NULL payload into a queue of two entries. -/
theorem failed_insert_atomic_witness :
    (pq_insert (some ⟨[⟨7, 1⟩, ⟨8, 3⟩]⟩) 0 2 true).ret ≠ 0 ∧
    (pq_insert (some ⟨[⟨7, 1⟩, ⟨8, 3⟩]⟩) 0 2 true).queue = some ⟨[⟨7, 1⟩, ⟨8, 3⟩]⟩ :=
  ⟨by decide,
    ((failed_insert_atomic (some ⟨[⟨7, 1⟩, ⟨8, 3⟩]⟩) 0 2 true).2 (by decide)).1⟩

/-- C10, as the spec states it, fails: on a present queue holding one entry, a call whose
`out_data` pointer is NULL returns -1 and leaves the entry in the queue. -/
theorem pop_fails_only_when_empty_counterexample :
    entries (some ⟨[⟨7, 1⟩]⟩) ≠ [] ∧
    (pq_pop_highest (some ⟨[⟨7, 1⟩]⟩) none (some 0)).ret = -1 ∧
    (pq_pop_highest (some ⟨[⟨7, 1⟩]⟩) none (some 0)).queue = some ⟨[⟨7, 1⟩]⟩ := by
  decide

/-- C10, amended. `pq_pop_highest` fails (returns -1) exactly when the queue handle is
absent, the queue is empty, or one of the two output pointers is absent; for a present,
non-empty queue and two present output pointers it returns 0, and it returns nothing but
0 or -1. -/
theorem pop_fails_iff (queue : Option PriorityQueue) (od : Option Nat) (op : Option Int) :
    ((pq_pop_highest queue od op).ret = -1 ↔
      (queue = none ∨ queue = some ⟨[]⟩ ∨ od = none ∨ op = none)) ∧
    ((pq_pop_highest queue od op).ret = 0 ↔
      (∃ h t d p, queue = some ⟨h :: t⟩ ∧ od = some d ∧ op = some p)) ∧
    ((pq_pop_highest queue od op).ret = 0 ∨ (pq_pop_highest queue od op).ret = -1) := by
  refine ⟨?_, ?_, pq_pop_ret_cases queue od op⟩
  · cases queue with
    | none => simp [pq_pop_highest]
    | some q =>
      obtain ⟨l⟩ := q
      cases od <;> cases op <;> cases l <;> simp [pq_pop_highest]
  · cases queue with
    | none => simp [pq_pop_highest]
    | some q =>
      obtain ⟨l⟩ := q
      cases od <;> cases op <;> cases l <;> simp [pq_pop_highest]

/-- C6. Pop order equals enumeration order: the pairs that popping until failure collects
are exactly the entries `pq_print` goes through, head to tail, on the same queue just
before the first pop, and the queue is empty afterwards. The loop ends within one call
more than the queue has entries. -/
theorem pop_order_is_print_order (queue : Option PriorityQueue) (fuel : Nat) (d : Nat)
    (p : Int) (hf : (entries queue).length < fuel) :
    ∃ q, pop_until_fail fuel queue d p = some (traversed (pq_print queue), q) ∧
      entries q = [] ∧ (queue = none ↔ q = none) ∧
      traversed (pq_print queue) = entries queue := by
  obtain ⟨q, hq, he, hn⟩ := pop_until_fail_entries queue fuel d p hf
  exact ⟨q, by rw [traversed_pq_print]; exact hq, he, hn, traversed_pq_print queue⟩

/-- Witness for C6: the queue of the demo, with priorities 1, 1, 2, 3. -/
theorem pop_order_is_print_order_witness :
    ∃ q, pop_until_fail 5 (some ⟨[⟨12, 1⟩, ⟨14, 1⟩, ⟨13, 2⟩, ⟨11, 3⟩]⟩) 0 0 =
        some (traversed (pq_print (some ⟨[⟨12, 1⟩, ⟨14, 1⟩, ⟨13, 2⟩, ⟨11, 3⟩]⟩)), q) ∧
      entries q = [] ∧
      ((some ⟨[⟨12, 1⟩, ⟨14, 1⟩, ⟨13, 2⟩, ⟨11, 3⟩]⟩ : Option PriorityQueue) = none ↔
        q = none) ∧
      traversed (pq_print (some ⟨[⟨12, 1⟩, ⟨14, 1⟩, ⟨13, 2⟩, ⟨11, 3⟩]⟩)) =
        entries (some ⟨[⟨12, 1⟩, ⟨14, 1⟩, ⟨13, 2⟩, ⟨11, 3⟩]⟩) :=
  pop_order_is_print_order (some ⟨[⟨12, 1⟩, ⟨14, 1⟩, ⟨13, 2⟩, ⟨11, 3⟩]⟩) 5 0 0 (by decide)

/-- C9. No entry is dropped or duplicated by insert: after a successful `pq_insert` of
`(d, p)` the queue holds the entry `(d, p)` exactly once more than before, the new entry
sits at some position `i` and deleting position `i` gives back the old chain, entries and
order unchanged; so the new contents are a permutation of the new entry plus the old
contents, and the old chain is a subsequence of the new one. -/
theorem insert_adds_exactly_one (queue : Option PriorityQueue) (d : Nat) (p : Int) (m : Bool)
    (h : (pq_insert queue d p m).ret = 0) :
    (entries (pq_insert queue d p m).queue).count ⟨d, p⟩ =
      (entries queue).count ⟨d, p⟩ + 1 ∧
    (∃ i, (entries (pq_insert queue d p m).queue)[i]? = some ⟨d, p⟩ ∧
      (entries (pq_insert queue d p m).queue).eraseIdx i = entries queue) ∧
    (entries (pq_insert queue d p m).queue).Perm (⟨d, p⟩ :: entries queue) ∧
    (entries queue).Sublist (entries (pq_insert queue d p m).queue) := by
  rw [entries_pq_insert_ok queue d p m h]
  refine ⟨place_count _ _, ?_, place_perm _ _, place_sublist _ _⟩
  refine ⟨((entries queue).takeWhile (fun e => decide (e.priority ≤ p))).length, ?_, ?_⟩
  · unfold place
    rw [List.getElem?_append_right (le_refl _)]
    simp
  · have := eraseIdx_middle ((entries queue).takeWhile (fun e => decide (e.priority ≤ p)))
      ((entries queue).dropWhile (fun e => decide (e.priority ≤ p))) ⟨d, p⟩
    rw [List.takeWhile_append_dropWhile] at this
    exact this

/-- Witness for C9: a second entry `(7, 1)` inserted into a queue that already holds one. -/
theorem insert_adds_exactly_one_witness :
    (pq_insert (some ⟨[⟨7, 1⟩, ⟨8, 1⟩, ⟨9, 3⟩]⟩) 7 1 true).ret = 0 ∧
    (entries (pq_insert (some ⟨[⟨7, 1⟩, ⟨8, 1⟩, ⟨9, 3⟩]⟩) 7 1 true).queue).count ⟨7, 1⟩ =
      (entries (some ⟨[⟨7, 1⟩, ⟨8, 1⟩, ⟨9, 3⟩]⟩)).count ⟨7, 1⟩ + 1 :=
  ⟨by decide,
    (insert_adds_exactly_one (some ⟨[⟨7, 1⟩, ⟨8, 1⟩, ⟨9, 3⟩]⟩) 7 1 true (by decide)).1⟩

/-- C11, as the spec states it, fails: the visitor is not passed the priority. On two
queues that hold the same payload with different priorities, `pq_print` makes the same
call of `print_func`, with the payload pointer as its only argument. -/
theorem print_passes_priority_counterexample :
    visitor_calls (pq_print (some ⟨[⟨7, 1⟩]⟩)) = [7] ∧
    visitor_calls (pq_print (some ⟨[⟨7, 2⟩]⟩)) = [7] ∧
    entries (some ⟨[⟨7, 1⟩]⟩) ≠ entries (some ⟨[⟨7, 2⟩]⟩) := by
  decide

/-- C11, amended. `pq_print` is a read-only traversal: it calls the visitor `print_func`
exactly once per entry, in head-to-tail order, passing it that entry's payload only; the
entry's priority is printed by `pq_print` itself right after the call. On a present queue
the output is the banner, then label, visitor call and priority line for each entry, then
the footer; on an absent queue nothing. The queue's entries after the call are the entries
before it. -/
theorem print_is_read_only_traversal (queue : Option PriorityQueue) :
    visitor_calls (pq_print queue) = (entries queue).map Node.data ∧
    (visitor_calls (pq_print queue)).length = (entries queue).length ∧
    traversed (pq_print queue) = entries queue ∧
    (∀ q, queue = some q →
      pq_print queue = Output.banner :: (pq_print_loop q.head ++ [Output.footer])) ∧
    (queue = none → pq_print queue = []) ∧
    entries (pq_print_queue queue) = entries queue := by
  refine ⟨visitor_calls_pq_print queue, ?_, traversed_pq_print queue, ?_, ?_, rfl⟩
  · rw [visitor_calls_pq_print, List.length_map]
  · intro q hq
    subst hq
    rfl
  · intro hq
    subst hq
    rfl

/-- C12. The queue is payload-oblivious: take two insert sequences `xs`, `ys` of equal
length with the same priorities position by position and arbitrary non-null payloads, run
each on a fresh queue, with the same allocation outcomes. Then every insert returns the
same code in both runs, and the two resulting queues line up position by position: there
is one list `L` of pairs `(xs[i], ys[i])`, each from one step, a permutation of the steps
whose insert succeeded, such that the first queue is the first components of `L` and the
second queue the second components; so both carry the same priority sequence. Popping
until failure returns those entries, each with the payload and the priority that were
passed to `pq_insert` together. -/
theorem payload_oblivious (xs ys : List Node) (ms : List Bool)
    (hp : xs.map Node.priority = ys.map Node.priority)
    (hx : ∀ x ∈ xs, x.data ≠ 0) (hy : ∀ y ∈ ys, y.data ≠ 0) :
    rets (pq_create true).queue (insert_calls xs ms) =
      rets (pq_create true).queue (insert_calls ys ms) ∧
    ∃ L : List (Node × Node),
      entries (run (pq_create true).queue (insert_calls xs ms)) = L.map Prod.fst ∧
      entries (run (pq_create true).queue (insert_calls ys ms)) = L.map Prod.snd ∧
      L.Perm (accepted xs ys ms) ∧
      (∀ pr ∈ L, pr ∈ xs.zip ys) ∧
      (L.map Prod.fst).map Node.priority = (L.map Prod.snd).map Node.priority ∧
      ∀ fuel d p, L.length < fuel →
        ∃ q1 q2,
          pop_until_fail fuel (run (pq_create true).queue (insert_calls xs ms)) d p =
            some (L.map Prod.fst, q1) ∧
          pop_until_fail fuel (run (pq_create true).queue (insert_calls ys ms)) d p =
            some (L.map Prod.snd, q2) := by
  obtain ⟨hr, L, h1, h2, h3, h4⟩ := paired_inserts xs ys ms [] hp hx hy (by simp)
  have hc : (pq_create true).queue = some ⟨[]⟩ := rfl
  simp only [List.map_nil, List.nil_append] at hr h1 h2 h4
  rw [hc]
  refine ⟨hr, L, by rw [h1]; rfl, by rw [h2]; rfl, h4, ?_, ?_, ?_⟩
  · intro pr hpr
    exact accepted_subset_zip xs ys ms pr (h4.subset hpr)
  · rw [List.map_map, List.map_map]
    exact List.map_congr_left (fun pr hpr => h3 pr hpr)
  · intro fuel d p hf
    obtain ⟨q1, hq1, _, _⟩ := pop_until_fail_entries
      (run (some ⟨[]⟩) (insert_calls xs ms)) fuel d p (by rw [h1]; simpa [entries] using hf)
    obtain ⟨q2, hq2, _, _⟩ := pop_until_fail_entries
      (run (some ⟨[]⟩) (insert_calls ys ms)) fuel d p (by rw [h2]; simpa [entries] using hf)
    rw [h1] at hq1
    rw [h2] at hq2
    exact ⟨q1, q2, by rw [h1]; exact hq1, by rw [h2]; exact hq2⟩

/-- Witness for C12: priorities 3, 1, 2, 1 with payloads 11..14 in one run and 21..24 in
the other, the third allocation failing in both. -/
theorem payload_oblivious_witness :
    rets (pq_create true).queue
        (insert_calls [⟨11, 3⟩, ⟨12, 1⟩, ⟨13, 2⟩, ⟨14, 1⟩] [true, true, false, true]) =
      rets (pq_create true).queue
        (insert_calls [⟨21, 3⟩, ⟨22, 1⟩, ⟨23, 2⟩, ⟨24, 1⟩] [true, true, false, true]) :=
  (payload_oblivious [⟨11, 3⟩, ⟨12, 1⟩, ⟨13, 2⟩, ⟨14, 1⟩]
    [⟨21, 3⟩, ⟨22, 1⟩, ⟨23, 2⟩, ⟨24, 1⟩] [true, true, false, true] (by decide) (by decide)
    (by decide)).1

/-- C13. `pq_insert` accepts every priority: on a present queue, with a non-null payload
and a successful node allocation, it returns 0 whatever the integer priority (negative,
smallest or largest `int` included); it fails only for an absent queue handle, an absent
payload or a failed allocation. -/
theorem insert_accepts_every_priority (q : PriorityQueue) (d : Nat) (p : Int) (hd : d ≠ 0) :
    (pq_insert (some q) d p true).ret = 0 ∧
    (∀ queue d2 m, (pq_insert queue d2 p m).ret ≠ 0 ↔
      (queue = none ∨ d2 = 0 ∨ m = false)) := by
  refine ⟨by rw [pq_insert_ok q d p hd], ?_⟩
  intro queue d2 m
  rw [← pq_insert_fail_iff queue d2 p m]
  rcases pq_insert_ret_cases queue d2 p m with h | h <;> simp [h]

/-- Witness for C13: the smallest 32-bit `int` as priority. -/
theorem insert_accepts_every_priority_witness :
    (7 : Nat) ≠ 0 ∧
    (pq_insert (some ⟨[⟨8, 0⟩, ⟨9, 2147483647⟩]⟩) 7 (-2147483648) true).ret = 0 :=
  ⟨by decide,
    (insert_accepts_every_priority ⟨[⟨8, 0⟩, ⟨9, 2147483647⟩]⟩ 7 (-2147483648)
      (by decide)).1⟩

/-- C14. Teardown releases only bookkeeping: for every queue in memory (an empty one
included) whose payloads are blocks of their own, none of them the queue record or a node,
`pq_delete` leaves every node and the queue record released, changes the allocation of no
other block and the content of no block at all; so every payload reachable from the queue
is allocated afterwards exactly if it was before, with the content it had. On an empty
queue only the record is released. A call on an absent handle does nothing. -/
theorem delete_releases_only_bookkeeping (m : Memory) (q : HeapQueue)
    (hsep : ∀ n ∈ q.chain, n.node.data ≠ q.addr ∧ ∀ n2 ∈ q.chain, n2.addr ≠ n.node.data) :
    (∀ n ∈ q.chain, (pq_delete m (some q)).memory.allocated n.addr = false) ∧
    (pq_delete m (some q)).memory.allocated q.addr = false ∧
    (∀ a, a ≠ q.addr → (∀ n ∈ q.chain, n.addr ≠ a) →
      (pq_delete m (some q)).memory.allocated a = m.allocated a) ∧
    (pq_delete m (some q)).memory.content = m.content ∧
    (∀ e ∈ q.queue.head,
      (pq_delete m (some q)).memory.allocated e.data = m.allocated e.data ∧
      (pq_delete m (some q)).memory.content e.data = m.content e.data) ∧
    (q.chain = [] → (pq_delete m (some q)).memory = free m q.addr) ∧
    (pq_delete m none).memory = m ∧ (pq_delete m none).out = [] := by
  have hother : ∀ a, a ≠ q.addr → (∀ n ∈ q.chain, n.addr ≠ a) →
      (pq_delete m (some q)).memory.allocated a = m.allocated a := by
    intro a ha hn
    have hmem : ¬ a ∈ q.chain.map HeapNode.addr := by
      intro hc
      obtain ⟨n, hn1, hn2⟩ := List.mem_map.1 hc
      exact hn n hn1 hn2
    show (if a = q.addr then false else (pq_delete_loop m q.chain).allocated a) =
      m.allocated a
    rw [if_neg ha, pq_delete_loop_allocated, if_neg hmem]
  have hcontent : (pq_delete m (some q)).memory.content = m.content := by
    simp [pq_delete, free, pq_delete_loop_content]
  refine ⟨?_, ?_, hother, hcontent, ?_, ?_, rfl, rfl⟩
  · intro n hn
    have hmem : n.addr ∈ q.chain.map HeapNode.addr := List.mem_map.2 ⟨n, hn, rfl⟩
    show (if n.addr = q.addr then false else (pq_delete_loop m q.chain).allocated n.addr) =
      false
    rw [pq_delete_loop_allocated, if_pos hmem]
    split <;> rfl
  · simp [pq_delete, free]
  · intro e he
    obtain ⟨n, hn, rfl⟩ := List.mem_map.1 he
    refine ⟨hother n.node.data (hsep n hn).1 (hsep n hn).2, ?_⟩
    rw [hcontent]
  · intro he
    simp [pq_delete, he, pq_delete_loop]

/-- Witness for C14: a queue record at address 100 with nodes at 101 and 102 that hold the
payloads 7 and 8; after teardown the payload blocks are still allocated, the nodes and the
record are not. -/
theorem delete_releases_only_bookkeeping_witness :
    (pq_delete ⟨fun _ => true, fun a => a⟩
        (some ⟨100, [⟨101, ⟨7, 1⟩⟩, ⟨102, ⟨8, 2⟩⟩]⟩)).memory.allocated 100 = false ∧
    (∀ e ∈ [(⟨7, 1⟩ : Node), ⟨8, 2⟩],
      (pq_delete ⟨fun _ => true, fun a => a⟩
          (some ⟨100, [⟨101, ⟨7, 1⟩⟩, ⟨102, ⟨8, 2⟩⟩]⟩)).memory.allocated e.data = true ∧
      (pq_delete ⟨fun _ => true, fun a => a⟩
          (some ⟨100, [⟨101, ⟨7, 1⟩⟩, ⟨102, ⟨8, 2⟩⟩]⟩)).memory.content e.data = e.data) :=
  ⟨(delete_releases_only_bookkeeping ⟨fun _ => true, fun a => a⟩
      ⟨100, [⟨101, ⟨7, 1⟩⟩, ⟨102, ⟨8, 2⟩⟩]⟩ (by decide)).2.1,
    (delete_releases_only_bookkeeping ⟨fun _ => true, fun a => a⟩
      ⟨100, [⟨101, ⟨7, 1⟩⟩, ⟨102, ⟨8, 2⟩⟩]⟩ (by decide)).2.2.2.2.1⟩

/-- C15, as the spec states it, fails: an insert with an absent payload and an insert whose
node allocation fails report the same outcome to the caller, the return value -1 and an
unchanged queue, and a failed pop returns that same -1. -/
theorem error_kinds_counterexample :
    (pq_insert (some ⟨[⟨7, 1⟩]⟩) 0 2 true).ret = (pq_insert (some ⟨[⟨7, 1⟩]⟩) 5 2 false).ret ∧
    (pq_insert (some ⟨[⟨7, 1⟩]⟩) 0 2 true).queue =
      (pq_insert (some ⟨[⟨7, 1⟩]⟩) 5 2 false).queue ∧
    (pq_pop_highest (some ⟨[]⟩) (some 0) (some 0)).ret =
      (pq_insert (some ⟨[⟨7, 1⟩]⟩) 5 2 false).ret := by
  decide

/-- C15, amended. The queue operations report every failure with the one return value
-1: `pq_insert` returns -1 for an absent queue handle, for an absent payload and for a
failed node allocation alike, and `pq_pop_highest` returns -1 for each of its failures; a
call returns 0 or -1 and nothing else, so the return value tells success from failure but
not the kind. Only the text printed differs: a failed allocation prints its message, an
invalid argument of `pq_insert` prints nothing, a failed pop prints its message. -/
theorem failure_is_one_code (queue : Option PriorityQueue) (d : Nat) (p : Int) (m : Bool)
    (od : Option Nat) (op : Option Int) :
    ((pq_insert queue d p m).ret = 0 ∨ (pq_insert queue d p m).ret = -1) ∧
    ((queue = none ∨ d = 0) →
      (pq_insert queue d p m).ret = -1 ∧ (pq_insert queue d p m).out = []) ∧
    ((queue ≠ none ∧ d ≠ 0 ∧ m = false) →
      (pq_insert queue d p m).ret = -1 ∧
      (pq_insert queue d p m).out = [Output.node_alloc_failed]) ∧
    ((pq_pop_highest queue od op).ret = 0 ∨ (pq_pop_highest queue od op).ret = -1) ∧
    ((pq_pop_highest queue od op).ret ≠ 0 →
      (pq_pop_highest queue od op).ret = -1 ∧
      (pq_pop_highest queue od op).out = [Output.invalid_or_empty]) := by
  refine ⟨pq_insert_ret_cases queue d p m, ?_, ?_, pq_pop_ret_cases queue od op, ?_⟩
  · intro h
    cases queue with
    | none => simp [pq_insert]
    | some q =>
      have hd : d = 0 := by simpa using h
      simp [pq_insert, hd]
  · rintro ⟨hq, hd, hm⟩
    cases queue with
    | none => exact absurd rfl hq
    | some q => simp [pq_insert, hd, hm]
  · intro h
    rw [pq_pop_fail_eq queue od op h]
    exact ⟨rfl, rfl⟩

/-- Witness for C15: the failed allocation on a queue of one entry. -/
theorem failure_is_one_code_witness :
    (pq_insert (some ⟨[⟨7, 1⟩]⟩) 5 2 false).ret = -1 ∧
    (pq_insert (some ⟨[⟨7, 1⟩]⟩) 5 2 false).out = [Output.node_alloc_failed] :=
  (failure_is_one_code (some ⟨[⟨7, 1⟩]⟩) 5 2 false none none).2.2.1
    ⟨by decide, by decide, rfl⟩

/-- C16. Insertion position: after a successful `pq_insert` of `(d, p)` into any queue
(sorted or not) the chain is the longest initial run of old entries with priority `<= p`,
then `(d, p)`, then the rest of the old chain. The new node is the head (the run is empty)
exactly when the queue was empty or `p` is strictly less than the old head's priority. On
a sorted queue everything after the new node has priority `> p`, so every old entry with
priority `<= p` precedes the new node and every old entry with priority `> p` follows. -/
theorem insert_position (queue : Option PriorityQueue) (d : Nat) (p : Int) (m : Bool)
    (h : (pq_insert queue d p m).ret = 0) :
    entries (pq_insert queue d p m).queue =
      (entries queue).takeWhile (fun e => decide (e.priority ≤ p)) ++
        ⟨d, p⟩ :: (entries queue).dropWhile (fun e => decide (e.priority ≤ p)) ∧
    (entries queue).takeWhile (fun e => decide (e.priority ≤ p)) ++
        (entries queue).dropWhile (fun e => decide (e.priority ≤ p)) = entries queue ∧
    (∀ e ∈ (entries queue).takeWhile (fun e => decide (e.priority ≤ p)), e.priority ≤ p) ∧
    (∀ pre, pre <+: entries queue → (∀ e ∈ pre, e.priority ≤ p) →
      pre <+: (entries queue).takeWhile (fun e => decide (e.priority ≤ p))) ∧
    ((entries queue).takeWhile (fun e => decide (e.priority ≤ p)) = [] ↔
      (entries queue = [] ∨ ∃ hd tl, entries queue = hd :: tl ∧ p < hd.priority)) ∧
    (sorted (entries queue) →
      ∀ e ∈ (entries queue).dropWhile (fun e => decide (e.priority ≤ p)), p < e.priority) := by
  refine ⟨?_, List.takeWhile_append_dropWhile _ _, ?_, ?_, takeWhile_eq_nil_cases _ p, ?_⟩
  · rw [entries_pq_insert_ok queue d p m h]
    rfl
  · intro e he
    simpa using List.mem_takeWhile_imp he
  · intro pre hpre hall
    exact prefix_takeWhile _ pre _ hpre (fun e he => by simpa using hall e he)
  · intro hs
    exact dropWhile_gt _ p ((sorted_iff_pairwise _).1 hs)

/-- Witness for C16: priority 2 inserted into the unsorted chain 1, 2, 5, 0. -/
theorem insert_position_witness :
    (pq_insert (some ⟨[⟨7, 1⟩, ⟨8, 2⟩, ⟨9, 5⟩, ⟨6, 0⟩]⟩) 4 2 true).ret = 0 ∧
    entries (pq_insert (some ⟨[⟨7, 1⟩, ⟨8, 2⟩, ⟨9, 5⟩, ⟨6, 0⟩]⟩) 4 2 true).queue =
      [⟨7, 1⟩, ⟨8, 2⟩, ⟨4, 2⟩, ⟨9, 5⟩, ⟨6, 0⟩] :=
  ⟨by decide,
    (insert_position (some ⟨[⟨7, 1⟩, ⟨8, 2⟩, ⟨9, 5⟩, ⟨6, 0⟩]⟩) 4 2 true (by decide)).1⟩

/-- C17. Insert-then-pop round trip, for a non-null payload, a successful allocation and
two output cells: the insert returns 0; when the queue is empty or its head priority is
strictly greater than `p`, the pop that follows returns 0 with exactly `(d, p)` in the
output cells and leaves the queue as it was before the insert; when the head priority is
`<= p`, the pop returns the old head instead and `(d, p)` stays in the queue, placed in
the old tail. -/
theorem insert_then_pop (q : PriorityQueue) (d : Nat) (p : Int) (od : Nat) (op : Int)
    (hd : d ≠ 0) :
    (pq_insert (some q) d p true).ret = 0 ∧
    ((q.head = [] ∨ ∃ h t, q.head = h :: t ∧ p < h.priority) →
      pq_pop_highest (pq_insert (some q) d p true).queue (some od) (some op) =
        ⟨0, some q, some d, some p, []⟩) ∧
    (∀ h t, q.head = h :: t → h.priority ≤ p →
      pq_pop_highest (pq_insert (some q) d p true).queue (some od) (some op) =
        ⟨0, some ⟨place t ⟨d, p⟩⟩, some h.data, some h.priority, []⟩ ∧
      (⟨d, p⟩ : Node) ∈ place t ⟨d, p⟩) := by
  obtain ⟨l⟩ := q
  rw [pq_insert_ok ⟨l⟩ d p hd]
  refine ⟨rfl, ?_, ?_⟩
  · intro hq
    have ht := (takeWhile_eq_nil_cases l p).2 hq
    have hdw : l.dropWhile (fun e => decide (e.priority ≤ p)) = l := by
      have := List.takeWhile_append_dropWhile (fun e => decide (e.priority ≤ p)) l
      rwa [ht, List.nil_append] at this
    simp only [place, ht, hdw, List.nil_append]
    rfl
  · intro h t hq hp
    simp only at hq
    subst hq
    refine ⟨?_, by simp [place]⟩
    simp [place, List.takeWhile_cons, List.dropWhile_cons, hp, pq_pop_highest]

/-- Witness for C17: `(4, 0)` inserted in front of priority 1 comes straight back, and
`(4, 3)` inserted behind it does not. -/
theorem insert_then_pop_witness :
    pq_pop_highest (pq_insert (some ⟨[⟨7, 1⟩, ⟨8, 2⟩]⟩) 4 0 true).queue (some 0) (some 0) =
      ⟨0, some ⟨[⟨7, 1⟩, ⟨8, 2⟩]⟩, some 4, some 0, []⟩ ∧
    pq_pop_highest (pq_insert (some ⟨[⟨7, 1⟩, ⟨8, 2⟩]⟩) 4 3 true).queue (some 0) (some 0) =
      ⟨0, some ⟨place [⟨8, 2⟩] ⟨4, 3⟩⟩, some 7, some 1, []⟩ :=
  ⟨(insert_then_pop ⟨[⟨7, 1⟩, ⟨8, 2⟩]⟩ 4 0 0 0 (by decide)).2.1
      (Or.inr ⟨⟨7, 1⟩, [⟨8, 2⟩], rfl, by decide⟩),
    ((insert_then_pop ⟨[⟨7, 1⟩, ⟨8, 2⟩]⟩ 4 3 0 0 (by decide)).2.2 ⟨7, 1⟩ [⟨8, 2⟩] rfl
      (by decide)).1⟩

/-- C18. Inserts with distinct priorities commute: on a sorted queue, with non-null
payloads and successful allocations, inserting `(a, p1)` then `(b, p2)` gives the same
queue as inserting `(b, p2)` then `(a, p1)` when `p1 != p2`. When `p1 = p2` and `a != b`
the two orders give different queues, which differ only in the relative order of the two
new entries: they are adjacent, the one inserted first in front, and the entries before
and after them are the same old entries in both. -/
theorem inserts_commute (q : PriorityQueue) (a b : Nat) (p1 p2 : Int) (ha : a ≠ 0)
    (hb : b ≠ 0) (hs : sorted q.head) :
    (p1 ≠ p2 →
      (pq_insert (pq_insert (some q) a p1 true).queue b p2 true).queue =
        (pq_insert (pq_insert (some q) b p2 true).queue a p1 true).queue) ∧
    (p1 = p2 → a ≠ b →
      (pq_insert (pq_insert (some q) a p1 true).queue b p2 true).queue ≠
        (pq_insert (pq_insert (some q) b p2 true).queue a p1 true).queue ∧
      ∃ l1 l2, q.head = l1 ++ l2 ∧
        entries (pq_insert (pq_insert (some q) a p1 true).queue b p2 true).queue =
          l1 ++ ⟨a, p1⟩ :: ⟨b, p2⟩ :: l2 ∧
        entries (pq_insert (pq_insert (some q) b p2 true).queue a p1 true).queue =
          l1 ++ ⟨b, p2⟩ :: ⟨a, p1⟩ :: l2) := by
  have e1 : (pq_insert (pq_insert (some q) a p1 true).queue b p2 true).queue =
      some ⟨place (place q.head ⟨a, p1⟩) ⟨b, p2⟩⟩ := by
    rw [pq_insert_ok q a p1 ha, pq_insert_ok _ b p2 hb]
  have e2 : (pq_insert (pq_insert (some q) b p2 true).queue a p1 true).queue =
      some ⟨place (place q.head ⟨b, p2⟩) ⟨a, p1⟩⟩ := by
    rw [pq_insert_ok q b p2 hb, pq_insert_ok _ a p1 ha]
  rw [e1, e2]
  refine ⟨?_, ?_⟩
  · intro hne
    rw [place_place_comm q.head ⟨a, p1⟩ ⟨b, p2⟩ hs hne]
  · intro hp hab
    subst hp
    have h1 := place_place_same q.head ⟨a, p1⟩ ⟨b, p1⟩ rfl
    have h2 := place_place_same q.head ⟨b, p1⟩ ⟨a, p1⟩ rfl
    simp only at h1 h2
    refine ⟨?_, q.head.takeWhile (fun e => decide (e.priority ≤ p1)),
      q.head.dropWhile (fun e => decide (e.priority ≤ p1)),
      (List.takeWhile_append_dropWhile _ _).symm, ?_, ?_⟩
    · rw [h1, h2]
      intro heq
      have h3 := PriorityQueue.mk.inj (Option.some.inj heq)
      have h4 := List.append_cancel_left h3
      have h5 := (List.cons.inj h4).1
      exact hab (congrArg Node.data h5)
    · simp only [entries]
      exact h1
    · simp only [entries]
      exact h2

/-- Witness for C18: priorities 2 and 4 inserted into the sorted chain 1, 3, 5 in either
order. -/
theorem inserts_commute_witness :
    (pq_insert (pq_insert (some ⟨[⟨7, 1⟩, ⟨8, 3⟩, ⟨9, 5⟩]⟩) 4 2 true).queue 6 4 true).queue =
      (pq_insert (pq_insert (some ⟨[⟨7, 1⟩, ⟨8, 3⟩, ⟨9, 5⟩]⟩) 6 4 true).queue 4 2 true).queue :=
  (inserts_commute ⟨[⟨7, 1⟩, ⟨8, 3⟩, ⟨9, 5⟩]⟩ 4 6 2 4 (by decide) (by decide)
    (by decide)).1 (by decide)

end PriorityList
